import Mathlib

/-!
Shallow embedding of the moxie incremental-computation runtime and its DOM
binding layer (crates `moxie` and `moxie-dom`).

The `moxie` crate root (`src/lib.rs`) declares the `memo`, `state` and `embed`
modules and documents their behaviour, but their bodies are not part of this
source tree; those components (memoization store, state cells, revision
engine, call-address allocator and environment context) are modelled from the
specification.  The DOM binding (`dom/src/lib.rs`) is embedded directly from
its source: `MemoElement::attr`, `MemoElement::on`,
`MemoElement::ensure_child_attached` and `MemoElement::inner`.
-/

namespace Moxie

/-- Slot discriminator for repeated calls at one static site.  The DOM layer
passes attribute names (`topo::call!(slot: name, ...)` in `MemoElement::attr`)
and event names (`slot: Ev::NAME` in `MemoElement::on`), so slots are strings. -/
abbrev Slot := String

/-- Static call-site identifier, fixed per source call expression. -/
abbrev SiteId := Nat

/-- Modelled from the spec: the data model's `CallAddress`, "an opaque,
totally-ordered, hashable identifier composed of a static site id ... and a
dynamic path (ordered sequence of ancestor site ids plus a slot discriminator
...)".  The path lists the `(site, slot)` pairs of every enclosing call,
innermost last, so it carries both the own static site and the ancestor chain. -/
structure CallAddress where
  path : List (SiteId × Slot)
  deriving DecidableEq

/-- Memo-store addresses are call addresses. -/
abbrev Addr := CallAddress

/-- Equality-comparable fingerprint of a memoized operation's inputs. -/
abbrev Fp := Nat

/-- Value tokens: each invocation of an initializer produces a fresh token, so
value identity across revisions is expressible as token equality. -/
abbrev Token := Nat

/-- Modelled from the spec: a `MemoEntry` is a "tuple of (CallAddress,
Fingerprint, StoredValue, LastMarkedRevision)"; the last-marked component is
kept as the boolean "marked live this revision". -/
structure MemoEntry where
  fp : Fp
  val : Token
  marked : Bool
  deriving DecidableEq

/-- Modelled from the spec: the Memoization Store, "a mapping from call address
to a stored value plus the fingerprint (input) that produced it", together with
a counter supplying fresh value tokens for initializer invocations. -/
structure Store where
  entries : List (Addr × MemoEntry)
  fresh : Token

/-- Association-list lookup on store entries (first occurrence wins). -/
def lookupEntry (a : Addr) : List (Addr × MemoEntry) → Option MemoEntry
  | [] => none
  | (b, e) :: rest => if b = a then some e else lookupEntry a rest

/-- Replace the first entry stored at an address, leaving other entries alone. -/
def setEntry (a : Addr) (e : MemoEntry) : List (Addr × MemoEntry) → List (Addr × MemoEntry)
  | [] => []
  | (b, f) :: rest => if b = a then (b, e) :: rest else (b, f) :: setEntry a e rest

/-- Outcome of one `memo` call: the returned value, the updated store, whether
the initializer ran, and the token disposed by a fingerprint change (if any). -/
structure MemoResult where
  val : Token
  store : Store
  initCalled : Bool
  disposedTok : Option Token

/-- Modelled from the spec: `memo(address, fingerprint, init, dispose)`.
With no entry at the address the initializer runs and the result is stored
marked live; with an entry of equal fingerprint the cached value is returned
untouched and marked live; with a different fingerprint the old value is
disposed, the initializer runs on the new fingerprint, and the entry is
replaced and marked live. -/
def memoCall (s : Store) (a : Addr) (fp : Fp) : MemoResult :=
  match lookupEntry a s.entries with
  | none =>
      { val := s.fresh
        store := { entries := s.entries ++ [(a, ⟨fp, s.fresh, true⟩)], fresh := s.fresh + 1 }
        initCalled := true
        disposedTok := none }
  | some e =>
      if e.fp = fp then
        { val := e.val
          store := { s with entries := setEntry a ⟨e.fp, e.val, true⟩ s.entries }
          initCalled := false
          disposedTok := none }
      else
        { val := s.fresh
          store := { entries := setEntry a ⟨fp, s.fresh, true⟩ s.entries, fresh := s.fresh + 1 }
          initCalled := true
          disposedTok := some e.val }

/-- One observed `memo` call: its address, the value it returned, and whether
its initializer was invoked. -/
structure CallEvent where
  addr : Addr
  val : Token
  initCalled : Bool
  deriving DecidableEq

/-- Log of one or more revisions: the memo calls observed, in order, and the
tokens passed to disposal (either by fingerprint replacement or by the sweep). -/
structure Log where
  calls : List CallEvent
  disposes : List Token

/-- Modelled from the spec: executing the root function's memo calls in order
against the store, recording every call and every replacement disposal. -/
def runRev : Store → List (Addr × Fp) → Store × Log
  | s, [] => (s, ⟨[], []⟩)
  | s, (a, fp) :: rest =>
      let r := memoCall s a fp
      let p := runRev r.store rest
      (p.1, ⟨⟨a, r.val, r.initCalled⟩ :: p.2.calls, r.disposedTok.toList ++ p.2.disposes⟩)

/-- Modelled from the spec: Revision Engine step 2, "clear the marked-this-
revision flag for all Memoization Store entries". -/
def clearMarks (s : Store) : Store :=
  { s with entries := s.entries.map (fun p => (p.1, ⟨p.2.fp, p.2.val, false⟩)) }

/-- Modelled from the spec: Revision Engine step 4, the sweep — "remove and
dispose every Memoization Store entry not marked live".  Returns the swept
store and the disposed tokens. -/
def sweep (s : Store) : Store × List Token :=
  ({ s with entries := s.entries.filter (fun p => p.2.marked) },
   (s.entries.filter (fun p => !p.2.marked)).map (fun p => p.2.val))

/-- Modelled from the spec: one full revision cycle — clear marks, execute the
root function's calls, then sweep. -/
def revCycle (s : Store) (calls : List (Addr × Fp)) : Store × Log :=
  let p := runRev (clearMarks s) calls
  let q := sweep p.1
  (q.1, ⟨p.2.calls, p.2.disposes ++ q.2⟩)

/-- A sequence of revision cycles, concatenating their logs. -/
def runRevs : Store → List (List (Addr × Fp)) → Store × Log
  | s, [] => (s, ⟨[], []⟩)
  | s, calls :: rest =>
      let p := revCycle s calls
      let q := runRevs p.1 rest
      (q.1, ⟨p.2.calls ++ q.2.calls, p.2.disposes ++ q.2.disposes⟩)

/-- The store holding no entries. -/
def Store.empty : Store := ⟨[], 0⟩

/-- The call events recorded at one address, in order. -/
def eventsAt (a : Addr) : List CallEvent → List CallEvent
  | [] => []
  | ev :: rest => if ev.addr = a then ev :: eventsAt a rest else eventsAt a rest

/-- The calls a revision performs at one address, in order. -/
def callsAt (a : Addr) : List (Addr × Fp) → List (Addr × Fp)
  | [] => []
  | p :: rest => if p.1 = a then p :: callsAt a rest else callsAt a rest

theorem eventsAt_append (a : Addr) (l1 l2 : List CallEvent) :
    eventsAt a (l1 ++ l2) = eventsAt a l1 ++ eventsAt a l2 := by
  induction l1 with
  | nil => simp [eventsAt]
  | cons ev rest ih =>
      by_cases h : ev.addr = a <;> simp [eventsAt, h, ih]

theorem lookupEntry_append (a : Addr) (l1 l2 : List (Addr × MemoEntry)) :
    lookupEntry a (l1 ++ l2) =
      match lookupEntry a l1 with
      | some e => some e
      | none => lookupEntry a l2 := by
  induction l1 with
  | nil => simp [lookupEntry]
  | cons p rest ih =>
      obtain ⟨b, e⟩ := p
      by_cases hb : b = a <;> simp [lookupEntry, hb, ih]

theorem lookupEntry_setEntry_self (a : Addr) (e : MemoEntry)
    (l : List (Addr × MemoEntry)) :
    lookupEntry a (setEntry a e l) = (lookupEntry a l).map (fun _ => e) := by
  induction l with
  | nil => simp [lookupEntry, setEntry]
  | cons p rest ih =>
      obtain ⟨b, f⟩ := p
      by_cases hb : b = a <;> simp [lookupEntry, setEntry, hb, ih]

theorem lookupEntry_setEntry_ne (a b : Addr) (e : MemoEntry)
    (l : List (Addr × MemoEntry)) (hb : b ≠ a) :
    lookupEntry a (setEntry b e l) = lookupEntry a l := by
  induction l with
  | nil => simp [setEntry]
  | cons p rest ih =>
      obtain ⟨c, f⟩ := p
      by_cases hc : c = b
      · subst hc
        simp [lookupEntry, setEntry, hb]
      · by_cases hca : c = a <;> simp [lookupEntry, setEntry, hc, hca, Ne.symm hb, ih]

theorem memoCall_lookup_other (s : Store) (a b : Addr) (fp : Fp) (hab : b ≠ a) :
    lookupEntry a (memoCall s b fp).store.entries = lookupEntry a s.entries := by
  rcases h : lookupEntry b s.entries with _ | e
  · have happ : lookupEntry a (s.entries ++ [(b, ⟨fp, s.fresh, true⟩)]) =
        lookupEntry a s.entries := by
      rw [lookupEntry_append]
      cases lookupEntry a s.entries <;> simp [lookupEntry, hab]
    simp [memoCall, h, happ]
  · by_cases hfp : e.fp = fp <;>
      simp [memoCall, h, hfp, lookupEntry_setEntry_ne a b _ _ hab]

theorem callsAt_eq_nil (a : Addr) (calls : List (Addr × Fp)) :
    callsAt a calls = [] ↔ ∀ p ∈ calls, p.1 ≠ a := by
  induction calls with
  | nil => simp [callsAt]
  | cons p rest ih => by_cases h : p.1 = a <;> simp [callsAt, h, ih]

theorem runRev_fst (s : Store) (a : Addr) (fp : Fp) (rest : List (Addr × Fp)) :
    (runRev s ((a, fp) :: rest)).1 = (runRev (memoCall s a fp).store rest).1 := rfl

theorem runRev_snd_calls (s : Store) (a : Addr) (fp : Fp) (rest : List (Addr × Fp)) :
    (runRev s ((a, fp) :: rest)).2.calls =
      ⟨a, (memoCall s a fp).val, (memoCall s a fp).initCalled⟩ ::
        (runRev (memoCall s a fp).store rest).2.calls := rfl

theorem runRev_not_called (s : Store) (calls : List (Addr × Fp)) (a : Addr)
    (h : ∀ p ∈ calls, p.1 ≠ a) :
    lookupEntry a (runRev s calls).1.entries = lookupEntry a s.entries ∧
      eventsAt a (runRev s calls).2.calls = [] := by
  induction calls generalizing s with
  | nil => simp [runRev, eventsAt]
  | cons p rest ih =>
      obtain ⟨b, g⟩ := p
      have hb : b ≠ a := h (b, g) (by simp)
      have hrest : ∀ q ∈ rest, q.1 ≠ a := fun q hq => h q (by simp [hq])
      obtain ⟨ih1, ih2⟩ := ih ((memoCall s b g).store) hrest
      refine ⟨?_, ?_⟩
      · rw [runRev_fst, ih1, memoCall_lookup_other s a b g hb]
      · simp [runRev, eventsAt, hb, ih2]

theorem runRev_single_visit_new (s : Store) (calls : List (Addr × Fp)) (a : Addr) (fp : Fp)
    (hl : lookupEntry a s.entries = none)
    (hc : callsAt a calls = [(a, fp)]) :
    ∃ v, eventsAt a (runRev s calls).2.calls = [⟨a, v, true⟩] ∧
      lookupEntry a (runRev s calls).1.entries = some ⟨fp, v, true⟩ := by
  induction calls generalizing s with
  | nil => simp [callsAt] at hc
  | cons p rest ih =>
      obtain ⟨b, g⟩ := p
      by_cases hb : b = a
      · subst hb
        simp [callsAt] at hc
        obtain ⟨hg, hrest⟩ := hc
        subst hg
        have hnone : ∀ q ∈ rest, q.1 ≠ b := (callsAt_eq_nil b rest).1 hrest
        obtain ⟨p1, p2⟩ := runRev_not_called (memoCall s b g).store rest b hnone
        refine ⟨s.fresh, ?_, ?_⟩
        · rw [runRev_snd_calls]
          simp only [memoCall, hl] at p2
          simp [eventsAt, memoCall, hl, p2]
        · rw [runRev_fst, p1]
          simp [memoCall, hl, lookupEntry_append, lookupEntry]
      · simp only [callsAt, if_neg hb] at hc
        have hl2 : lookupEntry a (memoCall s b g).store.entries = none := by
          rw [memoCall_lookup_other s a b g hb, hl]
        obtain ⟨v, hv1, hv2⟩ := ih (memoCall s b g).store hl2 hc
        refine ⟨v, by simp [runRev, eventsAt, hb, hv1], ?_⟩
        rw [runRev_fst, hv2]

theorem runRev_single_visit_cached (s : Store) (calls : List (Addr × Fp))
    (a : Addr) (fp : Fp) (v : Token) (m : Bool)
    (hl : lookupEntry a s.entries = some ⟨fp, v, m⟩)
    (hc : callsAt a calls = [(a, fp)]) :
    eventsAt a (runRev s calls).2.calls = [⟨a, v, false⟩] ∧
      lookupEntry a (runRev s calls).1.entries = some ⟨fp, v, true⟩ := by
  induction calls generalizing s with
  | nil => simp [callsAt] at hc
  | cons p rest ih =>
      obtain ⟨b, g⟩ := p
      by_cases hb : b = a
      · subst hb
        simp [callsAt] at hc
        obtain ⟨hg, hrest⟩ := hc
        subst hg
        have hnone : ∀ q ∈ rest, q.1 ≠ b := (callsAt_eq_nil b rest).1 hrest
        obtain ⟨p1, p2⟩ := runRev_not_called (memoCall s b g).store rest b hnone
        refine ⟨?_, ?_⟩
        · rw [runRev_snd_calls]
          simp [memoCall, hl] at p2
          simp [eventsAt, memoCall, hl, p2]
        · rw [runRev_fst, p1]
          simp [memoCall, hl, lookupEntry_setEntry_self]
      · simp only [callsAt, if_neg hb] at hc
        have hl2 : lookupEntry a (memoCall s b g).store.entries = some ⟨fp, v, m⟩ := by
          rw [memoCall_lookup_other s a b g hb, hl]
        obtain ⟨hv1, hv2⟩ := ih (memoCall s b g).store hl2 hc
        refine ⟨by simp [runRev, eventsAt, hb, hv1], ?_⟩
        rw [runRev_fst, hv2]

theorem lookupEntry_map_entries (a : Addr) (f : MemoEntry → MemoEntry)
    (l : List (Addr × MemoEntry)) :
    lookupEntry a (l.map (fun p => (p.1, f p.2))) = (lookupEntry a l).map f := by
  induction l with
  | nil => simp [lookupEntry]
  | cons p rest ih =>
      obtain ⟨b, e⟩ := p
      by_cases hb : b = a <;> simp [lookupEntry, hb, ih]

theorem lookupEntry_clearMarks (a : Addr) (s : Store) :
    lookupEntry a (clearMarks s).entries =
      (lookupEntry a s.entries).map (fun e => ⟨e.fp, e.val, false⟩) := by
  show lookupEntry a (s.entries.map (fun p => ((p.1 : Addr), (⟨p.2.fp, p.2.val, false⟩ : MemoEntry)))) = _
  exact lookupEntry_map_entries a (fun e => ⟨e.fp, e.val, false⟩) s.entries

theorem lookupEntry_filter_marked (a : Addr) (e : MemoEntry) (l : List (Addr × MemoEntry))
    (hl : lookupEntry a l = some e) (hm : e.marked = true) :
    lookupEntry a (l.filter (fun p => p.2.marked)) = some e := by
  induction l with
  | nil => simp [lookupEntry] at hl
  | cons p rest ih =>
      obtain ⟨b, f⟩ := p
      by_cases hb : b = a
      · subst hb
        simp [lookupEntry] at hl
        subst hl
        simp [List.filter, hm, lookupEntry]
      · simp [lookupEntry, hb] at hl
        rcases hfm : f.marked with _ | _ <;>
          simp [List.filter, hfm, lookupEntry, hb, ih hl]

theorem revCycle_calls (s : Store) (calls : List (Addr × Fp)) :
    (revCycle s calls).2.calls = (runRev (clearMarks s) calls).2.calls := rfl

theorem revCycle_entries (s : Store) (calls : List (Addr × Fp)) :
    (revCycle s calls).1.entries =
      ((runRev (clearMarks s) calls).1.entries).filter (fun p => p.2.marked) := rfl

theorem revCycle_fresh_visit (s : Store) (calls : List (Addr × Fp)) (a : Addr) (fp : Fp)
    (hl : lookupEntry a s.entries = none)
    (hc : callsAt a calls = [(a, fp)]) :
    ∃ v, eventsAt a (revCycle s calls).2.calls = [⟨a, v, true⟩] ∧
      lookupEntry a (revCycle s calls).1.entries = some ⟨fp, v, true⟩ := by
  have hl2 : lookupEntry a (clearMarks s).entries = none := by
    rw [lookupEntry_clearMarks, hl]
    rfl
  obtain ⟨v, h1, h2⟩ := runRev_single_visit_new (clearMarks s) calls a fp hl2 hc
  refine ⟨v, ?_, ?_⟩
  · rw [revCycle_calls]
    exact h1
  · rw [revCycle_entries]
    exact lookupEntry_filter_marked a _ _ h2 rfl

theorem revCycle_cached_visit (s : Store) (calls : List (Addr × Fp))
    (a : Addr) (fp : Fp) (v : Token) (m : Bool)
    (hl : lookupEntry a s.entries = some ⟨fp, v, m⟩)
    (hc : callsAt a calls = [(a, fp)]) :
    eventsAt a (revCycle s calls).2.calls = [⟨a, v, false⟩] ∧
      lookupEntry a (revCycle s calls).1.entries = some ⟨fp, v, true⟩ := by
  have hl2 : lookupEntry a (clearMarks s).entries = some ⟨fp, v, false⟩ := by
    rw [lookupEntry_clearMarks, hl]
    rfl
  obtain ⟨h1, h2⟩ := runRev_single_visit_cached (clearMarks s) calls a fp v false hl2 hc
  refine ⟨?_, ?_⟩
  · rw [revCycle_calls]
    exact h1
  · rw [revCycle_entries]
    exact lookupEntry_filter_marked a _ _ h2 rfl

theorem runRevs_cons_calls (s : Store) (c : List (Addr × Fp))
    (rest : List (List (Addr × Fp))) :
    (runRevs s (c :: rest)).2.calls =
      (revCycle s c).2.calls ++ (runRevs (revCycle s c).1 rest).2.calls := rfl

theorem runRevs_cons_fst (s : Store) (c : List (Addr × Fp))
    (rest : List (List (Addr × Fp))) :
    (runRevs s (c :: rest)).1 = (runRevs (revCycle s c).1 rest).1 := rfl

theorem runRevs_cached (s : Store) (revs : List (List (Addr × Fp)))
    (a : Addr) (fp : Fp) (v : Token) (m : Bool)
    (hl : lookupEntry a s.entries = some ⟨fp, v, m⟩)
    (hrevs : ∀ rev ∈ revs, callsAt a rev = [(a, fp)]) :
    eventsAt a (runRevs s revs).2.calls = List.replicate revs.length ⟨a, v, false⟩ ∧
      ∃ m2, lookupEntry a (runRevs s revs).1.entries = some ⟨fp, v, m2⟩ := by
  induction revs generalizing s m with
  | nil => exact ⟨by simp [runRevs, eventsAt], m, hl⟩
  | cons c rest ih =>
      obtain ⟨h1, h2⟩ := revCycle_cached_visit s c a fp v m hl (hrevs c (by simp))
      obtain ⟨h3, h4⟩ := ih (revCycle s c).1 true h2
        (fun rev hrev => hrevs rev (by simp [hrev]))
      refine ⟨?_, ?_⟩
      · rw [runRevs_cons_calls, eventsAt_append, h1, h3]
        simp [List.replicate_succ]
      · rw [runRevs_cons_fst]
        exact h4

/-- Claim C1 (cache stability).  For every memoized call site, across any
sequence of consecutive revisions in which that call site is visited with an
unchanged fingerprint (one `memo` call at the address per revision, with no
entry present before the first), the initializer is invoked exactly once, at
the first visit, and every later `memo` call at that address returns the
identical stored value without re-invoking the initializer: the logged events
at the address are one initializing call followed by cached calls that all
return the same value token. -/
theorem memo_cache_stability (s : Store) (a : Addr) (fp : Fp)
    (revs : List (List (Addr × Fp)))
    (hl : lookupEntry a s.entries = none)
    (hrevs : ∀ rev ∈ revs, callsAt a rev = [(a, fp)])
    (hne : revs ≠ []) :
    ∃ v, eventsAt a (runRevs s revs).2.calls =
      ⟨a, v, true⟩ :: List.replicate (revs.length - 1) ⟨a, v, false⟩ := by
  obtain ⟨rev0, rest, rfl⟩ := List.exists_cons_of_ne_nil hne
  obtain ⟨v, h1, h2⟩ := revCycle_fresh_visit s rev0 a fp hl (hrevs rev0 (by simp))
  obtain ⟨h3, -⟩ := runRevs_cached (revCycle s rev0).1 rest a fp v true h2
    (fun rev hrev => hrevs rev (by simp [hrev]))
  refine ⟨v, ?_⟩
  rw [runRevs_cons_calls, eventsAt_append, h1, h3]
  simp

/-- Witness for C1: three consecutive revisions visiting the root address with
fingerprint 7 log one initializing call and two cached ones. -/
theorem memo_cache_stability_witness :
    ∃ v, eventsAt ⟨[]⟩
        (runRevs Store.empty
          [[(⟨[]⟩, 7)], [(⟨[]⟩, 7)], [(⟨[]⟩, 7)]]).2.calls =
      ⟨⟨[]⟩, v, true⟩ :: List.replicate 2 ⟨⟨[]⟩, v, false⟩ :=
  memo_cache_stability Store.empty ⟨[]⟩ 7 [[(⟨[]⟩, 7)], [(⟨[]⟩, 7)], [(⟨[]⟩, 7)]]
    rfl
    (by
      intro rev hrev
      simp only [List.mem_cons, List.not_mem_nil, or_false] at hrev
      rcases hrev with rfl | rfl | rfl <;> simp [callsAt])
    (by simp)

/-- The stored value tokens of a list of entries, in order. -/
def vals (l : List (Addr × MemoEntry)) : List Token := l.map (fun p => p.2.val)

/-- The addresses of a list of entries, in order. -/
def keys (l : List (Addr × MemoEntry)) : List Addr := l.map (fun p => p.1)

/-- Modelled from the spec: invariants the Memoization Store maintains — every
stored token was produced by the fresh counter, stored tokens are pairwise
distinct, and no address occurs twice. -/
def StoreInv (s : Store) : Prop :=
  (∀ v ∈ vals s.entries, v < s.fresh) ∧ (vals s.entries).Nodup ∧ (keys s.entries).Nodup

/-- Invariant tying a store to the disposal tokens logged so far: the store is
well formed, no token is logged twice, logged tokens came from the counter, and
no live entry holds an already-disposed token. -/
def DisposeInv (s : Store) (d : List Token) : Prop :=
  StoreInv s ∧ d.Nodup ∧ (∀ t ∈ d, t < s.fresh) ∧ ∀ v ∈ vals s.entries, v ∉ d

theorem lookupEntry_eq_none_iff (a : Addr) (l : List (Addr × MemoEntry)) :
    lookupEntry a l = none ↔ ∀ p ∈ l, p.1 ≠ a := by
  induction l with
  | nil => simp [lookupEntry]
  | cons p rest ih =>
      obtain ⟨b, e⟩ := p
      by_cases hb : b = a <;> simp [lookupEntry, hb, ih]

theorem setEntry_keys (a : Addr) (e : MemoEntry) (l : List (Addr × MemoEntry)) :
    keys (setEntry a e l) = keys l := by
  induction l with
  | nil => rfl
  | cons p rest ih =>
      obtain ⟨b, f⟩ := p
      by_cases hb : b = a <;> simp [setEntry, keys, hb] <;> simpa [keys] using ih

theorem setEntry_val_decomp (a : Addr) (e2 : MemoEntry) (l : List (Addr × MemoEntry))
    (e : MemoEntry) (hl : lookupEntry a l = some e) :
    ∃ l1 l2, vals l = l1 ++ e.val :: l2 ∧ vals (setEntry a e2 l) = l1 ++ e2.val :: l2 := by
  induction l with
  | nil => simp [lookupEntry] at hl
  | cons p rest ih =>
      obtain ⟨b, f⟩ := p
      by_cases hb : b = a
      · subst hb
        simp [lookupEntry] at hl
        subst hl
        exact ⟨[], vals rest, by simp [vals], by simp [setEntry, vals]⟩
      · simp [lookupEntry, hb] at hl
        obtain ⟨l1, l2, h1, h2⟩ := ih hl
        exact ⟨f.val :: l1, l2, by simp [vals] at h1 ⊢; exact h1,
          by simp [setEntry, hb, vals] at h2 ⊢; exact h2⟩


theorem memoCall_none_eqs (s : Store) (a : Addr) (fp : Fp)
    (hl : lookupEntry a s.entries = none) :
    (memoCall s a fp).store.entries = s.entries ++ [(a, ⟨fp, s.fresh, true⟩)] ∧
      (memoCall s a fp).store.fresh = s.fresh + 1 ∧
      (memoCall s a fp).disposedTok = none := by
  refine ⟨?_, ?_, ?_⟩ <;> simp [memoCall, hl]

theorem memoCall_hit_eqs (s : Store) (a : Addr) (e : MemoEntry)
    (hl : lookupEntry a s.entries = some e) :
    (memoCall s a e.fp).store.entries = setEntry a ⟨e.fp, e.val, true⟩ s.entries ∧
      (memoCall s a e.fp).store.fresh = s.fresh ∧
      (memoCall s a e.fp).disposedTok = none := by
  refine ⟨?_, ?_, ?_⟩ <;> simp [memoCall, hl]

theorem memoCall_change_eqs (s : Store) (a : Addr) (fp : Fp) (e : MemoEntry)
    (hl : lookupEntry a s.entries = some e) (hfp : e.fp ≠ fp) :
    (memoCall s a fp).store.entries = setEntry a ⟨fp, s.fresh, true⟩ s.entries ∧
      (memoCall s a fp).store.fresh = s.fresh + 1 ∧
      (memoCall s a fp).disposedTok = some e.val := by
  refine ⟨?_, ?_, ?_⟩ <;> simp [memoCall, hl, hfp]

theorem memoCall_dispose_inv (s : Store) (a : Addr) (fp : Fp) (d : List Token)
    (h : DisposeInv s d) :
    DisposeInv (memoCall s a fp).store (d ++ (memoCall s a fp).disposedTok.toList) := by
  obtain ⟨⟨hlt, hvn, hkn⟩, hdn, hdlt, hlive⟩ := h
  rcases hl : lookupEntry a s.entries with _ | e
  · obtain ⟨hm, hf, hd0⟩ := memoCall_none_eqs s a fp hl
    have hvnew : vals (memoCall s a fp).store.entries = vals s.entries ++ [s.fresh] := by
      rw [hm]
      simp [vals]
    have hknew : keys (memoCall s a fp).store.entries = keys s.entries ++ [a] := by
      rw [hm]
      simp [keys]
    refine ⟨⟨?_, ?_, ?_⟩, ?_, ?_, ?_⟩ <;> (try rw [hd0]) <;> (try rw [hf])
    · rw [hvnew]
      intro v hv
      rcases List.mem_append.1 hv with hv | hv
      · exact Nat.lt_succ_of_lt (hlt v hv)
      · simp at hv
        subst hv
        exact Nat.lt_succ_self _
    · rw [hvnew]
      refine List.Nodup.append hvn (by simp) ?_
      intro v hv1 hv2
      simp at hv2
      subst hv2
      exact absurd (hlt _ hv1) (lt_irrefl _)
    · rw [hknew]
      refine List.Nodup.append hkn (by simp) ?_
      intro b hb1 hb2
      simp at hb2
      subst hb2
      have hex : ∃ x, (b, x) ∈ s.entries := by
        simpa [keys] using hb1
      obtain ⟨x, hx⟩ := hex
      exact (lookupEntry_eq_none_iff b s.entries).1 hl (b, x) hx rfl
    · simpa using hdn
    · intro t ht
      simp at ht
      exact Nat.lt_succ_of_lt (hdlt t ht)
    · rw [hvnew]
      intro v hv
      rcases List.mem_append.1 hv with hv | hv
      · simpa using hlive v hv
      · simp at hv
        subst hv
        intro hmem
        simp at hmem
        exact absurd (hdlt _ hmem) (lt_irrefl _)
  · by_cases hfp : e.fp = fp
    · subst hfp
      obtain ⟨hm, hf, hd0⟩ := memoCall_hit_eqs s a e hl
      obtain ⟨l1, l2, hd1, hd2⟩ :=
        setEntry_val_decomp a ⟨e.fp, e.val, true⟩ s.entries e hl
      have hvals : vals (memoCall s a e.fp).store.entries = vals s.entries := by
        rw [hm, hd2, hd1]
      refine ⟨⟨?_, ?_, ?_⟩, ?_, ?_, ?_⟩ <;> (try rw [hd0]) <;> (try rw [hf])
      · rw [hvals]
        exact hlt
      · rw [hvals]
        exact hvn
      · rw [hm, setEntry_keys]
        exact hkn
      · simpa using hdn
      · simpa using hdlt
      · rw [hvals]
        simpa using hlive
    · obtain ⟨hm, hf, hd0⟩ := memoCall_change_eqs s a fp e hl hfp
      obtain ⟨l1, l2, hd1, hd2⟩ :=
        setEntry_val_decomp a ⟨fp, s.fresh, true⟩ s.entries e hl
      have hvnew : vals (memoCall s a fp).store.entries = l1 ++ s.fresh :: l2 := by
        rw [hm, hd2]
      rw [hd1] at hvn hlt hlive
      have hvn2 := List.nodup_middle.1 hvn
      have hev_notmem : e.val ∉ l1 ++ l2 := (List.nodup_cons.1 hvn2).1
      have hl12 : (l1 ++ l2).Nodup := (List.nodup_cons.1 hvn2).2
      have hmem12 : ∀ v ∈ l1 ++ l2, v ∈ l1 ++ e.val :: l2 := by
        intro v hv
        rcases List.mem_append.1 hv with hv | hv
        · exact List.mem_append.2 (Or.inl hv)
        · exact List.mem_append.2 (Or.inr (List.mem_cons_of_mem _ hv))
      have hev_mem : e.val ∈ l1 ++ e.val :: l2 :=
        List.mem_append.2 (Or.inr (List.mem_cons_self _ _))
      have hlt12 : ∀ v ∈ l1 ++ l2, v < s.fresh := fun v hv => hlt v (hmem12 v hv)
      have hfresh_notmem : s.fresh ∉ l1 ++ l2 := by
        intro hmem
        exact absurd (hlt12 _ hmem) (lt_irrefl _)
      refine ⟨⟨?_, ?_, ?_⟩, ?_, ?_, ?_⟩ <;> (try rw [hd0]) <;> (try rw [hf])
      · rw [hvnew]
        intro v hv
        rcases List.mem_append.1 hv with hv | hv
        · exact Nat.lt_succ_of_lt (hlt12 v (List.mem_append.2 (Or.inl hv)))
        · rcases List.mem_cons.1 hv with hv | hv
          · subst hv
            exact Nat.lt_succ_self _
          · exact Nat.lt_succ_of_lt (hlt12 v (List.mem_append.2 (Or.inr hv)))
      · rw [hvnew]
        exact List.nodup_middle.2 (List.nodup_cons.2 ⟨hfresh_notmem, hl12⟩)
      · rw [hm, setEntry_keys]
        exact hkn
      · refine List.Nodup.append hdn (by simp) ?_
        intro t ht1 ht2
        simp at ht2
        subst ht2
        exact hlive e.val hev_mem ht1
      · intro t ht
        rcases List.mem_append.1 ht with ht | ht
        · exact Nat.lt_succ_of_lt (hdlt t ht)
        · simp at ht
          subst ht
          exact Nat.lt_succ_of_lt (hlt _ hev_mem)
      · rw [hvnew]
        intro v hv hvd
        rcases List.mem_append.1 hvd with hvd | hvd
        · rcases List.mem_append.1 hv with hv | hv
          · exact hlive v (List.mem_append.2 (Or.inl hv)) hvd
          · rcases List.mem_cons.1 hv with hv | hv
            · subst hv
              exact absurd (hdlt _ hvd) (lt_irrefl _)
            · exact hlive v (List.mem_append.2 (Or.inr (List.mem_cons_of_mem _ hv))) hvd
        · simp at hvd
          subst hvd
          rcases List.mem_append.1 hv with hv | hv
          · exact hev_notmem (List.mem_append.2 (Or.inl hv))
          · rcases List.mem_cons.1 hv with hv | hv
            · exact absurd hv (Nat.ne_of_lt (hlt _ hev_mem))
            · exact hev_notmem (List.mem_append.2 (Or.inr hv))

theorem runRev_snd_disposes (s : Store) (a : Addr) (fp : Fp) (rest : List (Addr × Fp)) :
    (runRev s ((a, fp) :: rest)).2.disposes =
      (memoCall s a fp).disposedTok.toList ++
        (runRev (memoCall s a fp).store rest).2.disposes := rfl

theorem sweep_snd (s : Store) :
    (sweep s).2 = vals (s.entries.filter (fun p => !p.2.marked)) := rfl

theorem revCycle_disposes (s : Store) (calls : List (Addr × Fp)) :
    (revCycle s calls).2.disposes =
      (runRev (clearMarks s) calls).2.disposes ++
        (sweep (runRev (clearMarks s) calls).1).2 := rfl

theorem runRevs_cons_disposes (s : Store) (c : List (Addr × Fp))
    (rest : List (List (Addr × Fp))) :
    (runRevs s (c :: rest)).2.disposes =
      (revCycle s c).2.disposes ++ (runRevs (revCycle s c).1 rest).2.disposes := rfl

theorem clearMarks_vals (s : Store) : vals (clearMarks s).entries = vals s.entries := by
  show vals (s.entries.map (fun p => ((p.1 : Addr), (⟨p.2.fp, p.2.val, false⟩ : MemoEntry)))) = _
  induction s.entries with
  | nil => rfl
  | cons p rest ih => simpa [vals] using ih

theorem clearMarks_keys (s : Store) : keys (clearMarks s).entries = keys s.entries := by
  show keys (s.entries.map (fun p => ((p.1 : Addr), (⟨p.2.fp, p.2.val, false⟩ : MemoEntry)))) = _
  induction s.entries with
  | nil => rfl
  | cons p rest ih => simpa [keys] using ih

theorem clearMarks_dispose_inv (s : Store) (d : List Token) (h : DisposeInv s d) :
    DisposeInv (clearMarks s) d := by
  obtain ⟨⟨hlt, hvn, hkn⟩, hdn, hdlt, hlive⟩ := h
  exact ⟨⟨by rw [clearMarks_vals]; exact hlt, by rw [clearMarks_vals]; exact hvn,
    by rw [clearMarks_keys]; exact hkn⟩, hdn, hdlt, by rw [clearMarks_vals]; exact hlive⟩

theorem vals_filter_sublist (p : Addr × MemoEntry → Bool) (l : List (Addr × MemoEntry)) :
    List.Sublist (vals (l.filter p)) (vals l) :=
  (List.filter_sublist l).map _

theorem keys_filter_sublist (p : Addr × MemoEntry → Bool) (l : List (Addr × MemoEntry)) :
    List.Sublist (keys (l.filter p)) (keys l) :=
  (List.filter_sublist l).map _

theorem filter_vals_partition (l : List (Addr × MemoEntry)) (h : (vals l).Nodup) :
    (vals (l.filter (fun p => p.2.marked)) ++
      vals (l.filter (fun p => !p.2.marked))).Nodup := by
  induction l with
  | nil => simp [vals]
  | cons x rest ih =>
      have h2 : (x.2.val :: vals rest).Nodup := h
      have hx : x.2.val ∉ vals rest := (List.nodup_cons.1 h2).1
      have hrest : (vals rest).Nodup := (List.nodup_cons.1 h2).2
      have hnotk : x.2.val ∉ vals (rest.filter (fun p => p.2.marked)) :=
        fun hmem => hx ((vals_filter_sublist _ rest).subset hmem)
      have hnotr : x.2.val ∉ vals (rest.filter (fun p => !p.2.marked)) :=
        fun hmem => hx ((vals_filter_sublist _ rest).subset hmem)
      rcases hm : x.2.marked with _ | _
      · have e1 : (x :: rest).filter (fun p => p.2.marked) =
            rest.filter (fun p => p.2.marked) := by
          simp [List.filter_cons, hm]
        have e2 : (x :: rest).filter (fun p => !p.2.marked) =
            x :: rest.filter (fun p => !p.2.marked) := by
          simp [List.filter_cons, hm]
        rw [e1, e2, show vals (x :: rest.filter (fun p => !p.2.marked)) =
            x.2.val :: vals (rest.filter (fun p => !p.2.marked)) from rfl]
        refine List.nodup_middle.2 (List.nodup_cons.2 ⟨?_, ih hrest⟩)
        intro hmem
        rcases List.mem_append.1 hmem with hmem | hmem
        · exact hnotk hmem
        · exact hnotr hmem
      · have e1 : (x :: rest).filter (fun p => p.2.marked) =
            x :: rest.filter (fun p => p.2.marked) := by
          simp [List.filter_cons, hm]
        have e2 : (x :: rest).filter (fun p => !p.2.marked) =
            rest.filter (fun p => !p.2.marked) := by
          simp [List.filter_cons, hm]
        rw [e1, e2, show vals (x :: rest.filter (fun p => p.2.marked)) =
            x.2.val :: vals (rest.filter (fun p => p.2.marked)) from rfl]
        refine List.nodup_cons.2 ⟨?_, ih hrest⟩
        intro hmem
        rcases List.mem_append.1 hmem with hmem | hmem
        · exact hnotk hmem
        · exact hnotr hmem

theorem sweep_dispose_inv (s : Store) (d : List Token) (h : DisposeInv s d) :
    DisposeInv (sweep s).1 (d ++ (sweep s).2) := by
  obtain ⟨⟨hlt, hvn, hkn⟩, hdn, hdlt, hlive⟩ := h
  have hkeptsub := vals_filter_sublist (fun p => p.2.marked) s.entries
  have hremsub := vals_filter_sublist (fun p => !p.2.marked) s.entries
  have hpart := filter_vals_partition s.entries hvn
  have hdisj := (List.nodup_append.1 hpart).2.2
  refine ⟨⟨?_, ?_, ?_⟩, ?_, ?_, ?_⟩
  · intro v hv
    exact hlt v (hkeptsub.subset hv)
  · exact hvn.sublist hkeptsub
  · exact hkn.sublist (keys_filter_sublist _ _)
  · rw [sweep_snd]
    refine List.Nodup.append hdn (hvn.sublist hremsub) ?_
    intro t ht1 ht2
    exact hlive t (hremsub.subset ht2) ht1
  · intro t ht
    rcases List.mem_append.1 ht with ht | ht
    · exact hdlt t ht
    · exact hlt t (hremsub.subset ht)
  · intro v hv hvd
    rcases List.mem_append.1 hvd with hvd | hvd
    · exact hlive v (hkeptsub.subset hv) hvd
    · exact hdisj hv hvd

theorem runRev_dispose_inv (s : Store) (calls : List (Addr × Fp)) (d : List Token)
    (h : DisposeInv s d) :
    DisposeInv (runRev s calls).1 (d ++ (runRev s calls).2.disposes) := by
  induction calls generalizing s d with
  | nil => simpa [runRev] using h
  | cons c rest ih =>
      obtain ⟨a, fp⟩ := c
      have h1 := memoCall_dispose_inv s a fp d h
      have h2 := ih (memoCall s a fp).store (d ++ (memoCall s a fp).disposedTok.toList) h1
      rw [runRev_fst, runRev_snd_disposes, ← List.append_assoc]
      exact h2

theorem revCycle_dispose_inv (s : Store) (calls : List (Addr × Fp)) (d : List Token)
    (h : DisposeInv s d) :
    DisposeInv (revCycle s calls).1 (d ++ (revCycle s calls).2.disposes) := by
  have h1 := clearMarks_dispose_inv s d h
  have h2 := runRev_dispose_inv (clearMarks s) calls d h1
  have h3 := sweep_dispose_inv (runRev (clearMarks s) calls).1
    (d ++ (runRev (clearMarks s) calls).2.disposes) h2
  rw [revCycle_disposes, ← List.append_assoc]
  exact h3

theorem runRevs_dispose_inv (s : Store) (revs : List (List (Addr × Fp))) (d : List Token)
    (h : DisposeInv s d) :
    DisposeInv (runRevs s revs).1 (d ++ (runRevs s revs).2.disposes) := by
  induction revs generalizing s d with
  | nil => simpa [runRevs] using h
  | cons c rest ih =>
      have h1 := revCycle_dispose_inv s c d h
      have h2 := ih (revCycle s c).1 (d ++ (revCycle s c).2.disposes) h1
      rw [runRevs_cons_fst, runRevs_cons_disposes, ← List.append_assoc]
      exact h2

theorem mem_removed_of_unmarked (a : Addr) (e : MemoEntry) (l : List (Addr × MemoEntry))
    (hl : lookupEntry a l = some e) (hm : e.marked = false) :
    e.val ∈ vals (l.filter (fun p => !p.2.marked)) := by
  induction l with
  | nil => simp [lookupEntry] at hl
  | cons p rest ih =>
      obtain ⟨b, f⟩ := p
      by_cases hb : b = a
      · subst hb
        simp [lookupEntry] at hl
        subst hl
        have e2 : ((b, f) :: rest).filter (fun p => !p.2.marked) =
            (b, f) :: rest.filter (fun p => !p.2.marked) := by
          simp [List.filter_cons, hm]
        rw [e2]
        exact List.mem_cons_self _ _
      · simp [lookupEntry, hb] at hl
        rcases hfm : f.marked with _ | _
        · have e2 : ((b, f) :: rest).filter (fun p => !p.2.marked) =
              (b, f) :: rest.filter (fun p => !p.2.marked) := by
            simp [List.filter_cons, hfm]
          rw [e2, show vals ((b, f) :: rest.filter (fun p => !p.2.marked)) =
              f.val :: vals (rest.filter (fun p => !p.2.marked)) from rfl]
          exact List.mem_cons_of_mem _ (ih hl)
        · have e2 : ((b, f) :: rest).filter (fun p => !p.2.marked) =
              rest.filter (fun p => !p.2.marked) := by
            simp [List.filter_cons, hfm]
          rw [e2]
          exact ih hl

theorem lookupEntry_of_not_mem_keys (a : Addr) (l : List (Addr × MemoEntry))
    (h : a ∉ keys l) : lookupEntry a l = none := by
  refine (lookupEntry_eq_none_iff a l).2 ?_
  intro p hp hpa
  refine h ?_
  rw [← hpa]
  exact List.mem_map_of_mem (fun q => q.1) hp

theorem lookupEntry_filter_of_unmarked (a : Addr) (e : MemoEntry)
    (l : List (Addr × MemoEntry)) (hk : (keys l).Nodup)
    (hl : lookupEntry a l = some e) (hm : e.marked = false) :
    lookupEntry a (l.filter (fun p => p.2.marked)) = none := by
  induction l with
  | nil => simp [lookupEntry] at hl
  | cons p rest ih =>
      obtain ⟨b, f⟩ := p
      have hkt : (keys rest).Nodup := by
        rw [show keys ((b, f) :: rest) = b :: keys rest from by simp [keys]] at hk
        exact (List.nodup_cons.1 hk).2
      by_cases hb : b = a
      · subst hb
        simp [lookupEntry] at hl
        subst hl
        have hbk : b ∉ keys rest := by
          rw [show keys ((b, f) :: rest) = b :: keys rest from by simp [keys]] at hk
          exact (List.nodup_cons.1 hk).1
        have e1 : ((b, f) :: rest).filter (fun p => p.2.marked) =
            rest.filter (fun p => p.2.marked) := by
          simp [List.filter_cons, hm]
        rw [e1]
        exact lookupEntry_of_not_mem_keys b _
          (fun hmem => hbk ((keys_filter_sublist _ rest).subset hmem))
      · simp [lookupEntry, hb] at hl
        rcases hfm : f.marked with _ | _
        · have e1 : ((b, f) :: rest).filter (fun p => p.2.marked) =
              rest.filter (fun p => p.2.marked) := by
            simp [List.filter_cons, hfm]
          rw [e1]
          exact ih hkt hl
        · have e1 : ((b, f) :: rest).filter (fun p => p.2.marked) =
              (b, f) :: rest.filter (fun p => p.2.marked) := by
            simp [List.filter_cons, hfm]
          rw [e1, show lookupEntry a ((b, f) :: rest.filter (fun p => p.2.marked)) =
              lookupEntry a (rest.filter (fun p => p.2.marked)) from by
                simp [lookupEntry, hb]]
          exact ih hkt hl

theorem gc_cycle_disposes (s : Store) (rev : List (Addr × Fp)) (a : Addr) (e : MemoEntry)
    (hinv : StoreInv s)
    (hl : lookupEntry a s.entries = some e)
    (hnc : ∀ p ∈ rev, p.1 ≠ a) :
    e.val ∈ (revCycle s rev).2.disposes ∧
      lookupEntry a (revCycle s rev).1.entries = none := by
  have hcl : lookupEntry a (clearMarks s).entries = some ⟨e.fp, e.val, false⟩ := by
    rw [lookupEntry_clearMarks, hl]
    rfl
  obtain ⟨hpres, -⟩ := runRev_not_called (clearMarks s) rev a hnc
  have hrun : lookupEntry a (runRev (clearMarks s) rev).1.entries =
      some ⟨e.fp, e.val, false⟩ := by
    rw [hpres, hcl]
  constructor
  · rw [revCycle_disposes]
    refine List.mem_append.2 (Or.inr ?_)
    rw [sweep_snd]
    exact mem_removed_of_unmarked a ⟨e.fp, e.val, false⟩ _ hrun rfl
  · rw [revCycle_entries]
    refine lookupEntry_filter_of_unmarked a _ _ ?_ hrun rfl
    have h0 : DisposeInv s [] := ⟨hinv, List.nodup_nil, by simp, by simp⟩
    have h1 := runRev_dispose_inv (clearMarks s) rev []
      (clearMarks_dispose_inv s [] h0)
    exact h1.1.2.2

/-- Claim C2 (dispose exactly once).  Across any sequence of revisions run
from a well-formed store, no value token is ever passed to disposal twice
(the total dispose log has no duplicates); and an entry whose address is not
visited by a revision is removed by that revision's sweep, its value being
disposed by the end of that sweep — so the first revision that fails to mark
an entry live disposes it, exactly once, and the entry is gone afterwards. -/
theorem memo_dispose_once (s : Store) (revs : List (List (Addr × Fp)))
    (rev : List (Addr × Fp)) (a : Addr) (e : MemoEntry)
    (hinv : StoreInv s)
    (hl : lookupEntry a s.entries = some e)
    (hnc : ∀ p ∈ rev, p.1 ≠ a) :
    ((runRevs s revs).2.disposes).Nodup ∧
      e.val ∈ (revCycle s rev).2.disposes ∧
      lookupEntry a (revCycle s rev).1.entries = none := by
  refine ⟨?_, gc_cycle_disposes s rev a e hinv hl hnc⟩
  have h0 : DisposeInv s [] := ⟨hinv, List.nodup_nil, by simp, by simp⟩
  have h1 := runRevs_dispose_inv s revs [] h0
  simpa using h1.2.1

/-- Witness for C2: a store holding one entry at the root address, a
two-revision sequence, and an empty revision that sweeps the entry. -/
theorem memo_dispose_once_witness :
    (((runRevs ⟨[(⟨[]⟩, ⟨0, 0, true⟩)], 1⟩ [[(⟨[]⟩, 0)], []]).2.disposes).Nodup ∧
      (0 : Token) ∈ (revCycle ⟨[(⟨[]⟩, ⟨0, 0, true⟩)], 1⟩ []).2.disposes ∧
      lookupEntry ⟨[]⟩ (revCycle ⟨[(⟨[]⟩, ⟨0, 0, true⟩)], 1⟩ []).1.entries = none) :=
  memo_dispose_once ⟨[(⟨[]⟩, ⟨0, 0, true⟩)], 1⟩ [[(⟨[]⟩, 0)], []] [] ⟨[]⟩ ⟨0, 0, true⟩
    (by refine ⟨?_, ?_, ?_⟩ <;> simp [vals, keys, StoreInv])
    rfl
    (by simp)

/-- Modelled from the spec: a State Cell's storage — the value committed at
the start of the current revision paired with the pending-write slot
(StateCellRecord, sect. 3 and 4.4); the `state` module's body is not part of
this source tree. -/
structure StateCell where
  committed : Nat
  pending : Option Nat
  deriving DecidableEq

/-- Modelled from the spec: `read(handle)` returns the value committed as of
the start of the current revision. -/
def readCell (c : StateCell) : Nat := c.committed

/-- Modelled from the spec: `write(handle, new_value)` stores the new value
into the pending-write slot and does not mutate the committed value. -/
def writeCell (c : StateCell) (v : Nat) : StateCell := { c with pending := some v }

/-- Modelled from the spec: at the start of the next run-once, pending writes
are committed — they become the current committed value — before the root
function executes; last write wins. -/
def commitCell (c : StateCell) : StateCell := ⟨c.pending.getD c.committed, none⟩

/-- The writes performed on one cell during one revision window, in invocation
order. -/
def applyWrites (c : StateCell) : List Nat → StateCell
  | [] => c
  | v :: vs => applyWrites (writeCell c v) vs

theorem applyWrites_committed (c : StateCell) (ws : List Nat) :
    (applyWrites c ws).committed = c.committed := by
  induction ws generalizing c with
  | nil => rfl
  | cons v vs ih => simpa [applyWrites, writeCell] using ih (writeCell c v)

theorem applyWrites_pending (c : StateCell) (ws : List Nat) (v : Nat)
    (hw : ws.getLast? = some v) : (applyWrites c ws).pending = some v := by
  induction ws generalizing c with
  | nil => simp at hw
  | cons w vs ih =>
      rcases vs with _ | ⟨w2, vs2⟩
      · simp at hw
        subst hw
        rfl
      · rw [List.getLast?_cons_cons] at hw
        exact ih (writeCell c w) hw

/-- Claim C3 (write visibility).  A State Cell write performed during revision
N is not observable by any read of that cell within revision N: every read
still returns the value committed at the start of the revision; the pending
write becomes the committed value, visible to reads, once the next run-once
commits it before the root function runs — the committed value is then the
last write of the window, and with no writes the committed value is
unchanged. -/
theorem state_write_visibility (c : StateCell) (ws : List Nat) (v : Nat)
    (hp : c.pending = none) (hw : ws.getLast? = some v) :
    readCell (applyWrites c ws) = readCell c ∧
      readCell (commitCell (applyWrites c ws)) = v ∧
      readCell (commitCell c) = readCell c := by
  refine ⟨applyWrites_committed c ws, ?_, ?_⟩
  · rw [show readCell (commitCell (applyWrites c ws)) =
        ((applyWrites c ws).pending.getD (applyWrites c ws).committed) from rfl,
      applyWrites_pending c ws v hw]
    rfl
  · rw [show readCell (commitCell c) = (c.pending.getD c.committed) from rfl, hp]
    rfl

/-- Witness for C3: a cell holding 0 is written to 5 then 7 during a revision;
reads still return 0, and after the commit reads return 7 (Scenario C). -/
theorem state_write_visibility_witness :
    readCell (applyWrites ⟨0, none⟩ [5, 7]) = readCell ⟨0, none⟩ ∧
      readCell (commitCell (applyWrites ⟨0, none⟩ [5, 7])) = 7 ∧
      readCell (commitCell ⟨0, none⟩) = readCell ⟨0, none⟩ :=
  state_write_visibility ⟨0, none⟩ [5, 7] 7 rfl rfl

/-- Modelled from the spec: the Revision Engine's published state — the
revision counter, "a monotonically increasing counter, incremented exactly
once per completed run-once cycle", together with the memoization store; the
`embed` module's body is not part of this source tree. -/
structure Runtime where
  rev : Nat
  store : Store

/-- Modelled from the spec: the revision number `current_revision()` returns
while a run-once cycle executes — the engine increments the counter when the
cycle begins (sect. 4.5 step 1), so code inside the cycle observes the
incremented value. -/
def currentRevDuring (rt : Runtime) : Nat := rt.rev + 1

/-- Modelled from the spec: `run_once(root_fn)` executes exactly one revision
synchronously — clear marks, run the root function's memo calls, sweep — and
publishes the incremented revision counter; the store it returns is the
post-sweep store, so the call returns only after the sweep completes. -/
def runOnce (rt : Runtime) (calls : List (Addr × Fp)) : Runtime × Log :=
  let p := revCycle rt.store calls
  ({ rev := rt.rev + 1, store := p.1 }, p.2)

/-- Iterated run-once cycles. -/
def runMany (rt : Runtime) : List (List (Addr × Fp)) → Runtime
  | [] => rt
  | c :: cs => runMany (runOnce rt c).1 cs

theorem runMany_rev (rt : Runtime) (revs : List (List (Addr × Fp))) :
    (runMany rt revs).rev = rt.rev + revs.length := by
  induction revs generalizing rt with
  | nil => rfl
  | cons c cs ih =>
      rw [show runMany rt (c :: cs) = runMany (runOnce rt c).1 cs from rfl, ih]
      show rt.rev + 1 + cs.length = rt.rev + (cs.length + 1)
      omega

/-- Claim C6 (run-once and the revision counter).  `run_once` executes one
revision synchronously, returning the post-sweep store, and increments the
revision counter exactly once; across iterated cycles the counter advances by
exactly the number of completed cycles and is strictly increasing, never
reused — the revision observed inside a later cycle exceeds that observed in
any earlier one. -/
theorem run_once_revision (rt : Runtime) (calls : List (Addr × Fp))
    (revs : List (List (Addr × Fp))) (i j : Nat)
    (hij : i < j) (hj : j ≤ revs.length) :
    (runOnce rt calls).1.rev = rt.rev + 1 ∧
      (runOnce rt calls).1.store = (sweep (runRev (clearMarks rt.store) calls).1).1 ∧
      (runMany rt revs).rev = rt.rev + revs.length ∧
      currentRevDuring (runMany rt (revs.take i)) <
        currentRevDuring (runMany rt (revs.take j)) := by
  refine ⟨rfl, rfl, runMany_rev rt revs, ?_⟩
  rw [show ∀ u : Runtime, currentRevDuring u = u.rev + 1 from fun _ => rfl,
    show currentRevDuring (runMany rt (revs.take j)) =
      (runMany rt (revs.take j)).rev + 1 from rfl,
    runMany_rev, runMany_rev]
  simp only [List.length_take]
  omega

/-- Witness for C6: two empty revisions from a fresh runtime; the counter goes
0, 1, 2 and the revision observed in the first cycle is below the second. -/
theorem run_once_revision_witness :
    (runOnce ⟨0, Store.empty⟩ []).1.rev = 0 + 1 ∧
      (runOnce ⟨0, Store.empty⟩ []).1.store =
        (sweep (runRev (clearMarks Store.empty) []).1).1 ∧
      (runMany ⟨0, Store.empty⟩ [[], []]).rev =
        0 + ([[], []] : List (List (Addr × Fp))).length ∧
      currentRevDuring (runMany ⟨0, Store.empty⟩ ([[], []].take 0)) <
        currentRevDuring (runMany ⟨0, Store.empty⟩ ([[], []].take 2)) :=
  run_once_revision ⟨0, Store.empty⟩ [] [[], []] 0 2 (by omega) (by simp)

theorem clearMarks_fresh (s : Store) : (clearMarks s).fresh = s.fresh := rfl

theorem sweep_fst_fresh (s : Store) : (sweep s).1.fresh = s.fresh := rfl

theorem revCycle_single_calls (s : Store) (a : Addr) (fp : Fp) :
    (revCycle s [(a, fp)]).2.calls =
      [⟨a, (memoCall (clearMarks s) a fp).val,
        (memoCall (clearMarks s) a fp).initCalled⟩] := rfl

theorem revCycle_single_disposes (s : Store) (a : Addr) (fp : Fp) :
    (revCycle s [(a, fp)]).2.disposes =
      (memoCall (clearMarks s) a fp).disposedTok.toList ++
        (sweep (memoCall (clearMarks s) a fp).store).2 := by
  rw [revCycle_disposes, runRev_snd_disposes]
  show ((memoCall (clearMarks s) a fp).disposedTok.toList ++ []) ++ _ = _
  rw [List.append_nil]
  rfl

theorem revCycle_single_store (s : Store) (a : Addr) (fp : Fp) :
    (revCycle s [(a, fp)]).1 = (sweep (memoCall (clearMarks s) a fp).store).1 := rfl

/-- The fingerprint `MemoElement::on` passes to its memo call: the current
Revision, read via `moxie::embed::Revision::current()` while the cycle runs
(dom/src/lib.rs, `memo_with!(moxie::embed::Revision::current(), ...)`). -/
def onFingerprint (rt : Runtime) : Fp := currentRevDuring rt

/-- One run-once cycle whose root function reaches a single
`MemoElement::on::<Ev>` call site at the given address, as `on` does: the
memoized fingerprint is the revision current during the cycle. -/
def onCycle (rt : Runtime) (a : Addr) : Runtime × Log :=
  runOnce rt [(a, onFingerprint rt)]

/-- Claim C8 (`on` re-initializes every revision).  The fingerprint of an
`on` call site is the current revision number, which differs from the
preceding revision's fingerprint; hence over two consecutive revisions that
both reach the site, the initializer runs anew in each (both logged calls are
initializing), the first revision's stored handle is disposed during the
second, and the two stored values differ — the cache-stability reuse
guarantee never applies to `on` across consecutive revisions. -/
theorem on_reinit_every_revision (rt : Runtime) (a : Addr)
    (hl : lookupEntry a rt.store.entries = none) :
    ∃ v v2, (onCycle rt a).2.calls = [⟨a, v, true⟩] ∧
      (onCycle (onCycle rt a).1 a).2.calls = [⟨a, v2, true⟩] ∧
      v ∈ (onCycle (onCycle rt a).1 a).2.disposes ∧
      v ≠ v2 := by
  have hcm : lookupEntry a (clearMarks rt.store).entries = none := by
    rw [lookupEntry_clearMarks, hl]
    rfl
  obtain ⟨hm1, hf1, hd1⟩ := memoCall_none_eqs (clearMarks rt.store) a (onFingerprint rt) hcm
  refine ⟨rt.store.fresh, rt.store.fresh + 1, ?_, ?_, ?_, ?_⟩
  · rw [show (onCycle rt a).2.calls = (revCycle rt.store [(a, onFingerprint rt)]).2.calls
        from rfl, revCycle_single_calls]
    simp [memoCall, hcm, clearMarks_fresh]
  · rw [show (onCycle (onCycle rt a).1 a).2.calls =
        (revCycle (onCycle rt a).1.store
          [(a, onFingerprint (onCycle rt a).1)]).2.calls from rfl,
      revCycle_single_calls]
    have lookup1 : lookupEntry a (onCycle rt a).1.store.entries =
        some ⟨onFingerprint rt, rt.store.fresh, true⟩ := by
      rw [show (onCycle rt a).1.store = (revCycle rt.store [(a, onFingerprint rt)]).1
          from rfl, revCycle_single_store]
      refine lookupEntry_filter_marked a _ _ ?_ rfl
      rw [hm1, lookupEntry_append, hcm]
      simp [lookupEntry, clearMarks_fresh]
    have hcm2 : lookupEntry a (clearMarks (onCycle rt a).1.store).entries =
        some ⟨onFingerprint rt, rt.store.fresh, false⟩ := by
      rw [lookupEntry_clearMarks, lookup1]
      rfl
    have hne : (⟨onFingerprint rt, rt.store.fresh, false⟩ : MemoEntry).fp ≠
        onFingerprint (onCycle rt a).1 :=
      Nat.ne_of_lt (Nat.lt_succ_self (rt.rev + 1))
    have hfresh1 : (onCycle rt a).1.store.fresh = rt.store.fresh + 1 := by
      rw [show (onCycle rt a).1.store = (revCycle rt.store [(a, onFingerprint rt)]).1
          from rfl, revCycle_single_store, sweep_fst_fresh, hf1]
      rfl
    simp only [memoCall, hcm2, if_neg hne]
    rw [show (clearMarks (onCycle rt a).1.store).fresh = (onCycle rt a).1.store.fresh
        from rfl, hfresh1]
  · rw [show (onCycle (onCycle rt a).1 a).2.disposes =
        (revCycle (onCycle rt a).1.store
          [(a, onFingerprint (onCycle rt a).1)]).2.disposes from rfl,
      revCycle_single_disposes]
    have lookup1 : lookupEntry a (onCycle rt a).1.store.entries =
        some ⟨onFingerprint rt, rt.store.fresh, true⟩ := by
      rw [show (onCycle rt a).1.store = (revCycle rt.store [(a, onFingerprint rt)]).1
          from rfl, revCycle_single_store]
      refine lookupEntry_filter_marked a _ _ ?_ rfl
      rw [hm1, lookupEntry_append, hcm]
      simp [lookupEntry, clearMarks_fresh]
    have hcm2 : lookupEntry a (clearMarks (onCycle rt a).1.store).entries =
        some ⟨onFingerprint rt, rt.store.fresh, false⟩ := by
      rw [lookupEntry_clearMarks, lookup1]
      rfl
    have hne : (⟨onFingerprint rt, rt.store.fresh, false⟩ : MemoEntry).fp ≠
        onFingerprint (onCycle rt a).1 :=
      Nat.ne_of_lt (Nat.lt_succ_self (rt.rev + 1))
    simp only [memoCall, hcm2, if_neg hne]
    simp
  · exact Nat.ne_of_lt (Nat.lt_succ_self _)

/-- Witness for C8: from a fresh runtime, two consecutive revisions reaching
one `on` site both initialize, the first handle is disposed in the second
revision, and the stored values differ. -/
theorem on_reinit_every_revision_witness :
    ∃ v v2, (onCycle ⟨0, Store.empty⟩ ⟨[]⟩).2.calls = [⟨⟨[]⟩, v, true⟩] ∧
      (onCycle (onCycle ⟨0, Store.empty⟩ ⟨[]⟩).1 ⟨[]⟩).2.calls = [⟨⟨[]⟩, v2, true⟩] ∧
      v ∈ (onCycle (onCycle ⟨0, Store.empty⟩ ⟨[]⟩).1 ⟨[]⟩).2.disposes ∧
      v ≠ v2 :=
  on_reinit_every_revision ⟨0, Store.empty⟩ ⟨[]⟩ rfl

/-- A topological operation of the call-address allocator: enter a nested
call at a static site with a slot discriminator, or return from the current
call. -/
inductive TopoOp
  | enter (site : SiteId) (slot : Slot)
  | leave

/-- Modelled from the spec (sect. 4.1): `enter(site_id, slot)` pushes a new
nesting level and returns the composite address — the dynamic path extended
with the entered site and slot. -/
def enterAddr (path : List (SiteId × Slot)) (site : SiteId) (slot : Slot) : CallAddress :=
  ⟨path ++ [(site, slot)]⟩

/-- The allocator's dynamic path after a sequence of operations: `enter`
extends it, `exit` pops the innermost level. -/
def pathAfter (path : List (SiteId × Slot)) : List TopoOp → List (SiteId × Slot)
  | [] => path
  | .enter s sl :: rest => pathAfter (path ++ [(s, sl)]) rest
  | .leave :: rest => pathAfter path.dropLast rest

/-- The call addresses an execution trace produces, in order, starting from a
given dynamic path. -/
def addrsFrom (path : List (SiteId × Slot)) : List TopoOp → List CallAddress
  | [] => []
  | .enter s sl :: rest => enterAddr path s sl :: addrsFrom (path ++ [(s, sl)]) rest
  | .leave :: rest => addrsFrom path.dropLast rest

/-- The call addresses a root execution produces. -/
def addrs (t : List TopoOp) : List CallAddress := addrsFrom [] t

theorem addrsFrom_append (p : List (SiteId × Slot)) (t1 t2 : List TopoOp) :
    addrsFrom p (t1 ++ t2) = addrsFrom p t1 ++ addrsFrom (pathAfter p t1) t2 := by
  induction t1 generalizing p with
  | nil => simp [addrsFrom, pathAfter]
  | cons op rest ih =>
      cases op with
      | enter s sl => simp [addrsFrom, pathAfter, ih]
      | leave => simp [addrsFrom, pathAfter, ih]

theorem enterAddr_slot_inj (p : List (SiteId × Slot)) (site : SiteId) (sl1 sl2 : Slot)
    (h : enterAddr p site sl1 = enterAddr p site sl2) : sl1 = sl2 := by
  have h2 := congrArg CallAddress.path h
  simpa [enterAddr] using h2

/-- Claim C4 (address determinism and collision freedom).  Call addresses are
a deterministic function of the execution trace — the addresses of a trace
are a prefix of the addresses of any extension of it, so identical control
flow yields identical address sequences; within one revision, two calls at
the same static site under the same nesting that supply different explicit
slots (as `attr` does with `slot: name` and `on` with `slot: Ev::NAME`)
receive different call addresses; and a memo call at one of the two addresses
leaves the other's entry untouched, so their entries never collide. -/
theorem call_address_determinism (p : List (SiteId × Slot)) (site : SiteId)
    (sl1 sl2 : Slot) (t1 t2 : List TopoOp) (st : Store) (fp : Fp)
    (hsl : sl1 ≠ sl2) :
    enterAddr p site sl1 ≠ enterAddr p site sl2 ∧
      addrs (t1 ++ t2) = addrs t1 ++ addrsFrom (pathAfter [] t1) t2 ∧
      lookupEntry (enterAddr p site sl1)
          (memoCall st (enterAddr p site sl2) fp).store.entries =
        lookupEntry (enterAddr p site sl1) st.entries := by
  refine ⟨fun h => hsl (enterAddr_slot_inj p site sl1 sl2 h), addrsFrom_append [] t1 t2, ?_⟩
  exact memoCall_lookup_other st _ _ fp
    (fun h => hsl (enterAddr_slot_inj p site sl1 sl2 h.symm))

/-- Witness for C4: the attribute slots "class" and "id" at one site yield
distinct addresses, address sequences compose over traces, and memoizing
under one slot leaves the other slot's entry alone. -/
theorem call_address_determinism_witness :
    enterAddr [] 0 "class" ≠ enterAddr [] 0 "id" ∧
      addrs ([TopoOp.enter 0 "a"] ++ [TopoOp.enter 1 "b"]) =
        addrs [TopoOp.enter 0 "a"] ++
          addrsFrom (pathAfter [] [TopoOp.enter 0 "a"]) [TopoOp.enter 1 "b"] ∧
      lookupEntry (enterAddr [] 0 "class")
          (memoCall Store.empty (enterAddr [] 0 "id") 3).store.entries =
        lookupEntry (enterAddr [] 0 "class") Store.empty.entries :=
  call_address_determinism [] 0 "class" "id" [TopoOp.enter 0 "a"] [TopoOp.enter 1 "b"]
    Store.empty 3 (by simp)

/-- Typed keys of the environment context: each Rust type that can be
provided is a tag. -/
abbrev Ty := Nat

/-- Values stored in the environment, abstracted. -/
abbrev EValue := Nat

/-- The tag under which the DOM layer provides the parent `MemoElement`
(`env! { MemoElement => ... }` in `inner`, fetched by `text` and `element`
through `#[topo::from_env(parent: MemoElement)]`). -/
def tyMemoElement : Ty := 0

/-- Modelled from the spec (sect. 4.2): one environment frame — the typed
values one nested call scope provides. -/
abbrev Frame := List (Ty × EValue)

/-- Modelled from the spec: the environment stack, innermost frame first. -/
abbrev Env := List Frame

/-- Modelled from the spec (sect. 7): the environment error taxonomy. -/
inductive EnvironmentError
  | Missing
  deriving DecidableEq

/-- Type lookup within one frame. -/
def frameGet (t : Ty) : Frame → Option EValue
  | [] => none
  | (u, v) :: rest => if u = t then some v else frameGet t rest

/-- Modelled from the spec: `expect<T>()` retrieves the nearest-ancestor
provided value of type T, walking outward from the innermost frame, and fails
with `EnvironmentError::Missing` if none exists in the stack. -/
def expect (t : Ty) : Env → Except EnvironmentError EValue
  | [] => .error .Missing
  | f :: rest =>
      match frameGet t f with
      | some v => .ok v
      | none => expect t rest

/-- Modelled from the spec: `provide(value)` pushes a value scoped to the
dynamic extent of the enclosing call — a fresh innermost frame holding it;
a nested provide of the same type shadows the outer one for its extent. -/
def provide (t : Ty) (v : EValue) (env : Env) : Env := [(t, v)] :: env

/-- The environment fetch `text` performs for its `parent: MemoElement`
argument (dom/src/lib.rs, `#[topo::from_env(parent: MemoElement)]`). -/
def textParent (env : Env) : Except EnvironmentError EValue := expect tyMemoElement env

/-- The environment fetch `element` performs for its `parent: MemoElement`
argument. -/
def elementParent (env : Env) : Except EnvironmentError EValue := expect tyMemoElement env

/-- Claim C7 (environment lookup).  `expect<T>()` returns the value of the
nearest frame providing type T: whenever the frames inside the first
providing frame do not provide T, the result is that frame's value no matter
what any outer frame provides, and in particular a freshly provided value
shadows every outer provider.  When no frame on the stack provides the type,
`expect` fails with `EnvironmentError::Missing`; in particular the parent
fetch of `text` and `element` fails with Missing on an empty stack. -/
theorem expect_nearest_or_missing (t : Ty) (env : Env)
    (hmiss : ∀ f ∈ env, frameGet t f = none) :
    (∀ pre frm post w, (∀ g ∈ pre, frameGet t g = none) →
        frameGet t frm = some w → expect t (pre ++ frm :: post) = .ok w) ∧
      (∀ v env2, expect t (provide t v env2) = .ok v) ∧
      expect t env = .error .Missing ∧
      textParent [] = .error .Missing ∧
      elementParent [] = .error .Missing := by
  refine ⟨?_, ?_, ?_, rfl, rfl⟩
  · intro pre frm post w hpre hfrm
    induction pre with
    | nil => simp [expect, hfrm]
    | cons g pre2 ih =>
        have h0 := hpre g (by simp)
        have hrest : ∀ g2 ∈ pre2, frameGet t g2 = none :=
          fun g2 hg2 => hpre g2 (by simp [hg2])
        rw [show (g :: pre2) ++ frm :: post = g :: (pre2 ++ frm :: post) from rfl]
        simp [expect, h0]
        exact ih hrest
  · intro v env2
    simp [provide, expect, frameGet]
  · induction env with
    | nil => rfl
    | cons f rest ih =>
        have h0 := hmiss f (by simp)
        have hrest : ∀ g ∈ rest, frameGet t g = none :=
          fun g hg => hmiss g (by simp [hg])
        simp [expect, h0]
        exact ih hrest

/-- Witness for C7: with one frame providing only type 1, expecting type 0
fails with Missing; the nearest-provider and shadowing conjuncts hold for
every stack, a concrete case being an inner provider of 9 shadowing an outer
provider of 5. -/
theorem expect_nearest_or_missing_witness :
    ((∀ pre frm post w, (∀ g ∈ pre, frameGet 0 g = none) →
        frameGet 0 frm = some w → expect 0 (pre ++ frm :: post) = .ok w) ∧
      (∀ v env2, expect 0 (provide 0 v env2) = .ok v) ∧
      expect 0 [[(1, 5)]] = .error .Missing ∧
      textParent [] = .error .Missing ∧
      elementParent [] = .error .Missing) ∧
      expect 0 (provide 0 9 [[(0, 5)]]) = .ok 9 :=
  ⟨expect_nearest_or_missing 0 [[(1, 5)]]
    (by
      intro f hf
      simp only [List.mem_cons, List.not_mem_nil, or_false] at hf
      subst hf
      rfl),
   (expect_nearest_or_missing 0 [[(1, 5)]]
    (by
      intro f hf
      simp only [List.mem_cons, List.not_mem_nil, or_false] at hf
      subst hf
      rfl)).2.1 9 [[(0, 5)]]⟩

/-- String-keyed association lookup (first occurrence wins), used for DOM
attribute maps and for the per-name attribute guard store. -/
def assocGet {β : Type} (k : String) : List (String × β) → Option β
  | [] => none
  | (k2, v) :: rest => if k2 = k then some v else assocGet k rest

/-- Set a key's value, replacing the first binding or appending a new one —
the semantics of `Element::set_attribute`. -/
def assocSet {β : Type} (k : String) (v : β) : List (String × β) → List (String × β)
  | [] => [(k, v)]
  | (k2, v2) :: rest => if k2 = k then (k2, v) :: rest else (k2, v2) :: assocSet k v rest

/-- Remove a key's first binding — the semantics of
`Element::remove_attribute`. -/
def assocRemove {β : Type} (k : String) : List (String × β) → List (String × β)
  | [] => []
  | (k2, v2) :: rest => if k2 = k then rest else (k2, v2) :: assocRemove k rest

/-- The keys of a string-keyed association list. -/
def keysOf {β : Type} (l : List (String × β)) : List String := l.map (fun p => p.1)

theorem assocGet_set_self {β : Type} (k : String) (v : β) (l : List (String × β)) :
    assocGet k (assocSet k v l) = some v := by
  induction l with
  | nil => simp [assocSet, assocGet]
  | cons p rest ih =>
      obtain ⟨k2, v2⟩ := p
      by_cases hk : k2 = k <;> simp [assocSet, assocGet, hk, ih]

theorem assocGet_set_other {β : Type} (k k2 : String) (v : β) (l : List (String × β))
    (h : k2 ≠ k) : assocGet k2 (assocSet k v l) = assocGet k2 l := by
  induction l with
  | nil => simp [assocSet, assocGet, Ne.symm h]
  | cons p rest ih =>
      obtain ⟨k3, v3⟩ := p
      by_cases hk : k3 = k
      · subst hk
        simp [assocSet, assocGet, Ne.symm h]
      · by_cases hk2 : k3 = k2 <;> simp [assocSet, assocGet, hk, hk2, h, ih]

theorem assocGet_remove_other {β : Type} (k k2 : String) (l : List (String × β))
    (h : k2 ≠ k) : assocGet k2 (assocRemove k l) = assocGet k2 l := by
  induction l with
  | nil => simp [assocRemove]
  | cons p rest ih =>
      obtain ⟨k3, v3⟩ := p
      by_cases hk : k3 = k
      · subst hk
        simp [assocRemove, assocGet, Ne.symm h]
      · by_cases hk2 : k3 = k2 <;> simp [assocRemove, assocGet, hk, hk2, h, ih]

theorem assocGet_eq_none_iff {β : Type} (k : String) (l : List (String × β)) :
    assocGet k l = none ↔ ∀ p ∈ l, p.1 ≠ k := by
  induction l with
  | nil => simp [assocGet]
  | cons p rest ih =>
      obtain ⟨k2, v⟩ := p
      by_cases hk : k2 = k <;> simp [assocGet, hk, ih]

theorem assocRemove_of_none {β : Type} (k : String) (l : List (String × β))
    (h : assocGet k l = none) : assocRemove k l = l := by
  induction l with
  | nil => rfl
  | cons p rest ih =>
      obtain ⟨k2, v⟩ := p
      by_cases hk : k2 = k
      · simp [assocGet, hk] at h
      · simp [assocGet, hk] at h
        simp [assocRemove, hk, ih h]

theorem assocGet_remove_self {β : Type} (k : String) (l : List (String × β))
    (hk : (keysOf l).Nodup) : assocGet k (assocRemove k l) = none := by
  induction l with
  | nil => rfl
  | cons p rest ih =>
      obtain ⟨k2, v⟩ := p
      have hkt : (keysOf rest).Nodup := by
        rw [show keysOf ((k2, v) :: rest) = k2 :: keysOf rest from rfl] at hk
        exact (List.nodup_cons.1 hk).2
      by_cases hkk : k2 = k
      · subst hkk
        have hnot : k2 ∉ keysOf rest := by
          rw [show keysOf ((k2, v) :: rest) = k2 :: keysOf rest from rfl] at hk
          exact (List.nodup_cons.1 hk).1
        simp only [assocRemove, if_pos rfl]
        exact (assocGet_eq_none_iff k2 rest).2
          (fun p hp hpk => hnot (hpk ▸ List.mem_map_of_mem (fun q => q.1) hp))
      · simp [assocRemove, assocGet, hkk, ih hkt]

theorem assocGet_remove_none {β : Type} (k k2 : String) (l : List (String × β))
    (h : assocGet k l = none) : assocGet k (assocRemove k2 l) = none := by
  by_cases hk : k = k2
  · subst hk
    rw [assocRemove_of_none k l h]
    exact h
  · rw [assocGet_remove_other k2 k l hk]
    exact h

theorem assocGet_mem {β : Type} (k : String) (v : β) (l : List (String × β))
    (h : assocGet k l = some v) : (k, v) ∈ l := by
  induction l with
  | nil => simp [assocGet] at h
  | cons p rest ih =>
      obtain ⟨k2, v2⟩ := p
      by_cases hk : k2 = k
      · subst hk
        simp [assocGet] at h
        subst h
        exact List.mem_cons_self _ _
      · simp [assocGet, hk] at h
        exact List.mem_cons_of_mem _ (ih h)

theorem keysOf_set_of_none {β : Type} (k : String) (v : β) (l : List (String × β))
    (h : assocGet k l = none) : keysOf (assocSet k v l) = keysOf l ++ [k] := by
  induction l with
  | nil => rfl
  | cons p rest ih =>
      obtain ⟨k2, v2⟩ := p
      by_cases hk : k2 = k
      · simp [assocGet, hk] at h
      · simp [assocGet, hk] at h
        simp [assocSet, hk, keysOf] at ih ⊢
        exact ih h

theorem keysOf_set_of_some {β : Type} (k : String) (v w : β) (l : List (String × β))
    (h : assocGet k l = some w) : keysOf (assocSet k v l) = keysOf l := by
  induction l with
  | nil => simp [assocGet] at h
  | cons p rest ih =>
      obtain ⟨k2, v2⟩ := p
      by_cases hk : k2 = k
      · simp [assocSet, hk, keysOf]
      · simp [assocGet, hk] at h
        simp [assocSet, hk, keysOf] at ih ⊢
        exact ih h

theorem keysOf_set {β : Type} (k : String) (v : β) (l : List (String × β))
    (h : (keysOf l).Nodup) : (keysOf (assocSet k v l)).Nodup := by
  rcases hs : assocGet k l with _ | w
  · rw [keysOf_set_of_none k v l hs]
    refine List.Nodup.append h (by simp) ?_
    intro x hx1 hx2
    simp at hx2
    subst hx2
    obtain ⟨p, hp, hpk⟩ :=
      List.mem_map.1 (show x ∈ l.map (fun q => q.1) from hx1)
    exact (assocGet_eq_none_iff x l).1 hs p hp hpk
  · rw [keysOf_set_of_some k v w l hs]
    exact h

theorem assocRemove_sublist {β : Type} (k : String) (l : List (String × β)) :
    List.Sublist (assocRemove k l) l := by
  induction l with
  | nil => simp [assocRemove]
  | cons q qrest ihq =>
      obtain ⟨k3, v3⟩ := q
      by_cases hk3 : k3 = k
      · simp only [assocRemove, if_pos hk3]
        exact List.sublist_cons_self _ _
      · simp only [assocRemove, if_neg hk3]
        exact List.Sublist.cons₂ _ ihq

theorem keysOf_remove_nodup {β : Type} (k : String) (l : List (String × β))
    (h : (keysOf l).Nodup) : (keysOf (assocRemove k l)).Nodup := by
  have hs := (assocRemove_sublist k l).map (fun q : String × β => q.1)
  exact h.sublist hs

theorem assocGet_append {β : Type} (k : String) (l1 l2 : List (String × β)) :
    assocGet k (l1 ++ l2) =
      match assocGet k l1 with
      | some v => some v
      | none => assocGet k l2 := by
  induction l1 with
  | nil => simp [assocGet]
  | cons p rest ih =>
      obtain ⟨k2, v⟩ := p
      by_cases hk : k2 = k <;> simp [assocGet, hk, ih]

theorem assocGet_map {β γ : Type} (k : String) (f : β → γ) (l : List (String × β)) :
    assocGet k (l.map (fun p => (p.1, f p.2))) = (assocGet k l).map f := by
  induction l with
  | nil => simp [assocGet]
  | cons p rest ih =>
      obtain ⟨k2, v⟩ := p
      by_cases hk : k2 = k <;> simp [assocGet, hk, ih]

theorem keysOf_map {β γ : Type} (f : β → γ) (l : List (String × β)) :
    keysOf (l.map (fun p => (p.1, f p.2))) = keysOf l := by
  induction l with
  | nil => rfl
  | cons p rest ih => simpa [keysOf] using ih

theorem keysOf_filter_sublist {β : Type} (p : String × β → Bool)
    (l : List (String × β)) : List.Sublist (keysOf (l.filter p)) (keysOf l) :=
  (List.filter_sublist l).map _

/-- One attribute guard entry stored by `attr`: the fingerprint (the attribute
value string the guard was created from) and the per-revision liveness mark. -/
structure AttrEntry where
  fp : String
  marked : Bool
  deriving DecidableEq

/-- The state `MemoElement::attr` acts on: the element's attributes and the
memoized guard entries, keyed by attribute name — `attr` wraps its memo call
in `topo::call!(slot: name, ...)`, so each attribute name owns one call
address on the element. -/
structure AttrElemState where
  attrs : List (String × String)
  guards : List (String × AttrEntry)
  deriving DecidableEq

/-- Embedded from `MemoElement::attr` (dom/src/lib.rs): under the slot `name`
it calls `memo_with!(value.to_string(), init, |_| {})`, where `init` sets the
attribute and returns a scopeguard that removes the attribute when dropped.
No entry: run `init` (set the attribute, store a live guard).  Equal
fingerprint: reuse the stored guard untouched, marking it live.  Changed
fingerprint: the old guard is dropped (its scopeguard removes the attribute)
and `init` runs with the new value. -/
def attrCall (st : AttrElemState) (name value : String) : AttrElemState :=
  match assocGet name st.guards with
  | none =>
      { attrs := assocSet name value st.attrs
        guards := st.guards ++ [(name, ⟨value, true⟩)] }
  | some e =>
      if e.fp = value then
        { st with guards := assocSet name ⟨e.fp, true⟩ st.guards }
      else
        { attrs := assocSet name value (assocRemove name st.attrs)
          guards := assocSet name ⟨value, true⟩ st.guards }

/-- Begin a revision: clear the liveness marks of the attribute guards. -/
def attrClearMarks (st : AttrElemState) : AttrElemState :=
  { st with guards := st.guards.map (fun p => (p.1, ⟨p.2.fp, false⟩)) }

/-- Run a revision's `attr` declarations in order. -/
def attrRun (st : AttrElemState) : List (String × String) → AttrElemState
  | [] => st
  | (n, v) :: rest => attrRun (attrCall st n v) rest

/-- Sweep: drop every guard not marked live; each dropped guard's scopeguard
removes its attribute from the element. -/
def attrSweep (st : AttrElemState) : AttrElemState :=
  { attrs := (st.guards.filter (fun p => !p.2.marked)).foldl
      (fun acc p => assocRemove p.1 acc) st.attrs
    guards := st.guards.filter (fun p => p.2.marked) }

/-- One full revision over the element's `attr` declarations. -/
def attrRevCycle (st : AttrElemState) (decls : List (String × String)) : AttrElemState :=
  attrSweep (attrRun (attrClearMarks st) decls)

/-- Invariant tying guards to attributes: every stored guard's attribute is
currently set to the guard's fingerprint, and neither map repeats a key. -/
def AttrInv (st : AttrElemState) : Prop :=
  (∀ n e2, assocGet n st.guards = some e2 → assocGet n st.attrs = some e2.fp) ∧
    (keysOf st.attrs).Nodup ∧ (keysOf st.guards).Nodup

theorem attrCall_attr_set (st : AttrElemState) (name value : String)
    (hinv1 : ∀ n e2, assocGet n st.guards = some e2 →
      assocGet n st.attrs = some e2.fp) :
    assocGet name (attrCall st name value).attrs = some value := by
  rcases hg : assocGet name st.guards with _ | e
  · simp only [attrCall, hg]
    exact assocGet_set_self name value st.attrs
  · by_cases hfp : e.fp = value
    · simp only [attrCall, hg, if_pos hfp]
      rw [hinv1 name e hg, hfp]
    · simp only [attrCall, hg, if_neg hfp]
      exact assocGet_set_self name value _

theorem attrCall_attr_frame (st : AttrElemState) (name value n2 : String)
    (hn : n2 ≠ name) :
    assocGet n2 (attrCall st name value).attrs = assocGet n2 st.attrs := by
  rcases hg : assocGet name st.guards with _ | e
  · simp only [attrCall, hg]
    exact assocGet_set_other name n2 value st.attrs hn
  · by_cases hfp : e.fp = value
    · simp only [attrCall, hg, if_pos hfp]
    · simp only [attrCall, hg, if_neg hfp]
      rw [assocGet_set_other name n2 value _ hn, assocGet_remove_other name n2 _ hn]

theorem attrCall_guard_frame (st : AttrElemState) (name value n2 : String)
    (hn : n2 ≠ name) :
    assocGet n2 (attrCall st name value).guards = assocGet n2 st.guards := by
  rcases hg : assocGet name st.guards with _ | e
  · simp only [attrCall, hg]
    rw [assocGet_append]
    rcases h2 : assocGet n2 st.guards with _ | w
    · simp [assocGet, Ne.symm hn]
    · simp
  · by_cases hfp : e.fp = value
    · simp only [attrCall, hg, if_pos hfp]
      exact assocGet_set_other name n2 _ st.guards hn
    · simp only [attrCall, hg, if_neg hfp]
      exact assocGet_set_other name n2 _ st.guards hn

theorem attrCall_inv (st : AttrElemState) (name value : String) (h : AttrInv st) :
    AttrInv (attrCall st name value) := by
  obtain ⟨h1, h2, h3⟩ := h
  rcases hg : assocGet name st.guards with _ | e
  · refine ⟨?_, ?_, ?_⟩ <;> simp only [attrCall, hg]
    · intro n e2 hge
      rw [assocGet_append] at hge
      by_cases hn : n = name
      · subst hn
        rw [hg] at hge
        simp [assocGet] at hge
        subst hge
        exact assocGet_set_self n value st.attrs
      · rcases h4 : assocGet n st.guards with _ | w
        · rw [h4] at hge
          simp [assocGet, Ne.symm hn] at hge
        · rw [h4] at hge
          simp at hge
          subst hge
          rw [assocGet_set_other name n value st.attrs hn]
          exact h1 n w h4
    · exact keysOf_set name value st.attrs h2
    · have hname : name ∉ keysOf st.guards := by
        intro hmem
        obtain ⟨p, hp, hpk⟩ :=
          List.mem_map.1 (show name ∈ st.guards.map (fun q => q.1) from hmem)
        exact (assocGet_eq_none_iff name st.guards).1 hg p hp hpk
      rw [show keysOf (st.guards ++ [(name, (⟨value, true⟩ : AttrEntry))]) =
          keysOf st.guards ++ [name] from by simp [keysOf]]
      refine List.Nodup.append h3 (by simp) ?_
      intro x hx1 hx2
      simp at hx2
      subst hx2
      exact hname hx1
  · by_cases hfp : e.fp = value
    · refine ⟨?_, ?_, ?_⟩ <;> simp only [attrCall, hg, if_pos hfp]
      · intro n e2 hge
        by_cases hn : n = name
        · subst hn
          rw [assocGet_set_self] at hge
          cases hge
          exact h1 n e hg
        · rw [assocGet_set_other name n _ st.guards hn] at hge
          exact h1 n e2 hge
      · exact h2
      · exact keysOf_set name _ st.guards h3
    · refine ⟨?_, ?_, ?_⟩ <;> simp only [attrCall, hg, if_neg hfp]
      · intro n e2 hge
        by_cases hn : n = name
        · subst hn
          rw [assocGet_set_self] at hge
          cases hge
          exact assocGet_set_self n value _
        · rw [assocGet_set_other name n _ st.guards hn] at hge
          rw [assocGet_set_other name n value _ hn, assocGet_remove_other name n _ hn]
          exact h1 n e2 hge
      · exact keysOf_set name value _ (keysOf_remove_nodup name st.attrs h2)
      · exact keysOf_set name _ st.guards h3

theorem attrRun_frame (st : AttrElemState) (decls : List (String × String))
    (name : String) (hnd : ∀ p ∈ decls, p.1 ≠ name) (hinv : AttrInv st) :
    assocGet name (attrRun st decls).guards = assocGet name st.guards ∧
      assocGet name (attrRun st decls).attrs = assocGet name st.attrs ∧
      AttrInv (attrRun st decls) := by
  induction decls generalizing st with
  | nil => exact ⟨rfl, rfl, hinv⟩
  | cons d rest ih =>
      obtain ⟨n, v⟩ := d
      have hn : n ≠ name := hnd (n, v) (by simp)
      have hrest : ∀ p ∈ rest, p.1 ≠ name := fun p hp => hnd p (by simp [hp])
      obtain ⟨ih1, ih2, ih3⟩ := ih (attrCall st n v) hrest (attrCall_inv st n v hinv)
      refine ⟨?_, ?_, ih3⟩
      · rw [show attrRun st ((n, v) :: rest) = attrRun (attrCall st n v) rest from rfl,
          ih1, attrCall_guard_frame st n v name (Ne.symm hn)]
      · rw [show attrRun st ((n, v) :: rest) = attrRun (attrCall st n v) rest from rfl,
          ih2, attrCall_attr_frame st n v name (Ne.symm hn)]

theorem attrClearMarks_guards (st : AttrElemState) (n : String) :
    assocGet n (attrClearMarks st).guards =
      (assocGet n st.guards).map (fun e => ⟨e.fp, false⟩) := by
  show assocGet n (st.guards.map (fun p => (p.1, (⟨p.2.fp, false⟩ : AttrEntry)))) = _
  exact assocGet_map n (fun e : AttrEntry => (⟨e.fp, false⟩ : AttrEntry)) st.guards

theorem attrClearMarks_inv (st : AttrElemState) (h : AttrInv st) :
    AttrInv (attrClearMarks st) := by
  obtain ⟨h1, h2, h3⟩ := h
  refine ⟨?_, h2, ?_⟩
  · intro n e2 hge
    rw [attrClearMarks_guards] at hge
    rcases hg : assocGet n st.guards with _ | w
    · rw [hg] at hge
      simp at hge
    · rw [hg] at hge
      simp at hge
      subst hge
      exact h1 n w hg
  · show (keysOf (st.guards.map (fun p => (p.1, (⟨p.2.fp, false⟩ : AttrEntry))))).Nodup
    have hkm := keysOf_map (fun e : AttrEntry => (⟨e.fp, false⟩ : AttrEntry)) st.guards
    rw [show keysOf (st.guards.map (fun p => (p.1, (⟨p.2.fp, false⟩ : AttrEntry)))) =
      keysOf st.guards from hkm]
    exact h3

theorem assocGet_filter_unmarked (k : String) (e : AttrEntry)
    (l : List (String × AttrEntry)) (hk : (keysOf l).Nodup)
    (h : assocGet k l = some e) (hm : e.marked = false) :
    assocGet k (l.filter (fun p => p.2.marked)) = none := by
  induction l with
  | nil => simp [assocGet] at h
  | cons p rest ih =>
      obtain ⟨k2, f⟩ := p
      have hkt : (keysOf rest).Nodup :=
        (List.nodup_cons.1 (show (k2 :: keysOf rest).Nodup from hk)).2
      by_cases hkk : k2 = k
      · subst hkk
        simp [assocGet] at h
        subst h
        have hnot : k2 ∉ keysOf rest :=
          (List.nodup_cons.1 (show (k2 :: keysOf rest).Nodup from hk)).1
        have e1 : ((k2, f) :: rest).filter (fun p => p.2.marked) =
            rest.filter (fun p => p.2.marked) := by
          simp [List.filter_cons, hm]
        rw [e1]
        refine (assocGet_eq_none_iff k2 _).2 ?_
        intro q hq hqk
        refine hnot ?_
        rw [← hqk]
        exact (keysOf_filter_sublist _ rest).subset
          (List.mem_map_of_mem (fun z => z.1) hq)
      · simp [assocGet, hkk] at h
        rcases hfm : f.marked with _ | _
        · have e1 : ((k2, f) :: rest).filter (fun p => p.2.marked) =
              rest.filter (fun p => p.2.marked) := by
            simp [List.filter_cons, hfm]
          rw [e1]
          exact ih hkt h
        · have e1 : ((k2, f) :: rest).filter (fun p => p.2.marked) =
              (k2, f) :: rest.filter (fun p => p.2.marked) := by
            simp [List.filter_cons, hfm]
          rw [e1]
          rw [show assocGet k ((k2, f) :: rest.filter (fun p => p.2.marked)) =
              assocGet k (rest.filter (fun p => p.2.marked)) from by
                simp [assocGet, hkk]]
          exact ih hkt h

theorem foldl_remove_none {β : Type} (k : String) (rems : List (String × AttrEntry))
    (acc : List (String × β)) (h : assocGet k acc = none) :
    assocGet k (rems.foldl (fun a p => assocRemove p.1 a) acc) = none := by
  induction rems generalizing acc with
  | nil => exact h
  | cons p rest ih => exact ih (assocRemove p.1 acc) (assocGet_remove_none k p.1 acc h)

theorem foldl_remove_of_mem {β : Type} (k : String) (rems : List (String × AttrEntry))
    (acc : List (String × β)) (hk : (keysOf acc).Nodup) (hmem : k ∈ keysOf rems) :
    assocGet k (rems.foldl (fun a p => assocRemove p.1 a) acc) = none := by
  induction rems generalizing acc with
  | nil => simp [keysOf] at hmem
  | cons p rest ih =>
      by_cases hp : p.1 = k
      · have hr : assocGet k (assocRemove p.1 acc) = none := by
          rw [hp]
          exact assocGet_remove_self k acc hk
        exact foldl_remove_none k rest _ hr
      · have hmem2 : k ∈ keysOf rest := by
          rcases List.mem_cons.1 (show k ∈ p.1 :: keysOf rest from hmem) with h | h
          · exact absurd h.symm hp
          · exact h
        exact ih (assocRemove p.1 acc) (keysOf_remove_nodup p.1 acc hk) hmem2

theorem attrSweep_guard_gone (st : AttrElemState) (name : String) (e : AttrEntry)
    (hk : (keysOf st.guards).Nodup) (hg : assocGet name st.guards = some e)
    (hm : e.marked = false) : assocGet name (attrSweep st).guards = none :=
  assocGet_filter_unmarked name e st.guards hk hg hm

theorem attrSweep_attr_gone (st : AttrElemState) (name : String) (e : AttrEntry)
    (ha : (keysOf st.attrs).Nodup) (hg : assocGet name st.guards = some e)
    (hm : e.marked = false) : assocGet name (attrSweep st).attrs = none := by
  have hmem : (name, e) ∈ st.guards.filter (fun p => !p.2.marked) :=
    List.mem_filter.2 ⟨assocGet_mem name e st.guards hg, by simp [hm]⟩
  have hkey : name ∈ keysOf (st.guards.filter (fun p => !p.2.marked)) :=
    List.mem_map_of_mem (fun z => z.1) hmem
  exact foldl_remove_of_mem name _ st.attrs ha hkey

theorem assocGet_of_mem_nodup {β : Type} (l : List (String × β)) (q : String × β)
    (hk : (keysOf l).Nodup) (hq : q ∈ l) : assocGet q.1 l = some q.2 := by
  induction l with
  | nil => simp at hq
  | cons p rest ih =>
      obtain ⟨hp1, hp2⟩ := List.nodup_cons.1 (show (p.1 :: keysOf rest).Nodup from hk)
      rcases List.mem_cons.1 hq with hq1 | hq2
      · subst hq1
        obtain ⟨k2, v2⟩ := q
        simp [assocGet]
      · have hne : p.1 ≠ q.1 := by
          intro he
          exact hp1 (he ▸ List.mem_map_of_mem (fun z => z.1) hq2)
        obtain ⟨k2, v2⟩ := p
        simp only [assocGet, if_neg hne]
        exact ih hp2 hq2

theorem marked_not_removed_key (name : String) (e : AttrEntry)
    (l : List (String × AttrEntry)) (hk : (keysOf l).Nodup)
    (hg : assocGet name l = some e) (hm : e.marked = true) :
    name ∉ keysOf (l.filter (fun p => !p.2.marked)) := by
  intro hmem
  obtain ⟨q, hq, hqk⟩ :=
    List.mem_map.1 (show name ∈ (l.filter (fun p => !p.2.marked)).map (fun z => z.1)
      from hmem)
  have hql : q ∈ l := (List.mem_filter.1 hq).1
  have hqm : (!q.2.marked) = true := (List.mem_filter.1 hq).2
  have hget := assocGet_of_mem_nodup l q hk hql
  rw [hqk, hg] at hget
  have hq2 : e = q.2 := by
    cases hget
    rfl
  rw [← hq2, hm] at hqm
  simp at hqm

theorem foldl_remove_not_mem {β : Type} (k : String)
    (rems : List (String × AttrEntry)) (acc : List (String × β))
    (h : k ∉ keysOf rems) :
    assocGet k (rems.foldl (fun a p => assocRemove p.1 a) acc) = assocGet k acc := by
  induction rems generalizing acc with
  | nil => rfl
  | cons p rest ih =>
      have hp : p.1 ≠ k := by
        intro he
        refine h ?_
        rw [← he]
        exact List.mem_cons_self _ _
      have h2 : k ∉ keysOf rest := fun hm => h (List.mem_cons_of_mem _ hm)
      rw [show (p :: rest).foldl (fun a q => assocRemove q.1 a) acc =
          rest.foldl (fun a q => assocRemove q.1 a) (assocRemove p.1 acc) from rfl,
        ih (assocRemove p.1 acc) h2,
        assocGet_remove_other p.1 k acc (Ne.symm hp)]

theorem assocGet_filter_marked (k : String) (e : AttrEntry)
    (l : List (String × AttrEntry)) (hg : assocGet k l = some e)
    (hm : e.marked = true) :
    assocGet k (l.filter (fun p => p.2.marked)) = some e := by
  induction l with
  | nil => simp [assocGet] at hg
  | cons p rest ih =>
      obtain ⟨k2, f⟩ := p
      by_cases hk : k2 = k
      · subst hk
        simp [assocGet] at hg
        subst hg
        have e1 : ((k2, f) :: rest).filter (fun p => p.2.marked) =
            (k2, f) :: rest.filter (fun p => p.2.marked) := by
          simp [List.filter_cons, hm]
        rw [e1]
        simp [assocGet]
      · simp [assocGet, hk] at hg
        rcases hfm : f.marked with _ | _
        · have e1 : ((k2, f) :: rest).filter (fun p => p.2.marked) =
              rest.filter (fun p => p.2.marked) := by
            simp [List.filter_cons, hfm]
          rw [e1]
          exact ih hg
        · have e1 : ((k2, f) :: rest).filter (fun p => p.2.marked) =
              (k2, f) :: rest.filter (fun p => p.2.marked) := by
            simp [List.filter_cons, hfm]
          rw [e1, show assocGet k ((k2, f) :: rest.filter (fun p => p.2.marked)) =
              assocGet k (rest.filter (fun p => p.2.marked)) from by
                simp [assocGet, hk]]
          exact ih hg

theorem attrSweep_live (st : AttrElemState) (name : String) (v : String)
    (hinv : AttrInv st) (hg : assocGet name st.guards = some ⟨v, true⟩) :
    assocGet name (attrSweep st).guards = some ⟨v, true⟩ ∧
      assocGet name (attrSweep st).attrs = assocGet name st.attrs := by
  refine ⟨assocGet_filter_marked name _ st.guards hg rfl, ?_⟩
  exact foldl_remove_not_mem name _ st.attrs
    (marked_not_removed_key name ⟨v, true⟩ st.guards hinv.2.2 hg rfl)

theorem attrCall_guard_set (st : AttrElemState) (name value : String) :
    assocGet name (attrCall st name value).guards = some ⟨value, true⟩ := by
  rcases hg : assocGet name st.guards with _ | e
  · simp only [attrCall, hg]
    rw [assocGet_append, hg]
    simp [assocGet]
  · by_cases hfp : e.fp = value
    · simp only [attrCall, hg, if_pos hfp]
      rw [assocGet_set_self, hfp]
    · simp only [attrCall, hg, if_neg hfp]
      exact assocGet_set_self name _ st.guards

/-- The `attr` declarations a revision performs at one attribute name, in
order. -/
def declsAt (name : String) : List (String × String) → List (String × String)
  | [] => []
  | p :: rest => if p.1 = name then p :: declsAt name rest else declsAt name rest

theorem declsAt_eq_nil (name : String) (decls : List (String × String)) :
    declsAt name decls = [] ↔ ∀ p ∈ decls, p.1 ≠ name := by
  induction decls with
  | nil => simp [declsAt]
  | cons p rest ih => by_cases h : p.1 = name <;> simp [declsAt, h, ih]

theorem attrRun_single (st : AttrElemState) (decls : List (String × String))
    (name v : String) (hinv : AttrInv st)
    (hd : declsAt name decls = [(name, v)]) :
    assocGet name (attrRun st decls).guards = some ⟨v, true⟩ ∧
      assocGet name (attrRun st decls).attrs = some v ∧
      AttrInv (attrRun st decls) := by
  induction decls generalizing st with
  | nil => simp [declsAt] at hd
  | cons d rest ih =>
      obtain ⟨n, w⟩ := d
      by_cases hn : n = name
      · subst hn
        simp [declsAt] at hd
        obtain ⟨hw, hrest⟩ := hd
        subst hw
        have hnone : ∀ p ∈ rest, p.1 ≠ n := (declsAt_eq_nil n rest).1 hrest
        obtain ⟨f1, f2, f3⟩ := attrRun_frame (attrCall st n w) rest n hnone
          (attrCall_inv st n w hinv)
        refine ⟨?_, ?_, f3⟩
        · rw [show attrRun st ((n, w) :: rest) = attrRun (attrCall st n w) rest from rfl,
            f1, attrCall_guard_set]
        · rw [show attrRun st ((n, w) :: rest) = attrRun (attrCall st n w) rest from rfl,
            f2, attrCall_attr_set st n w hinv.1]
      · simp only [declsAt, if_neg hn] at hd
        exact ih (attrCall st n w) (attrCall_inv st n w hinv) hd

/-- Claim C5 (attr sets, frames and tears down).  An `attr(name, value)` call
always leaves the element's attribute `name` set to the value's string: the
initializer sets it when no guard is stored yet and when the fingerprint
changed, and on a cache hit it is already set; the call mutates no other
attribute.  A revision whose declarations reach the call site keeps the
attribute set after its sweep, while for every stored memo entry, a revision
that does not reach the site disposes the guard, whose drop removes the
attribute: afterwards the attribute and the guard entry are both gone. -/
theorem attr_effect (st : AttrElemState) (name value n2 : String)
    (declsIn declsOut : List (String × String))
    (hinv : AttrInv st) (hn2 : n2 ≠ name)
    (hin : declsAt name declsIn = [(name, value)])
    (hout : ∀ p ∈ declsOut, p.1 ≠ name) :
    assocGet name (attrCall st name value).attrs = some value ∧
      assocGet n2 (attrCall st name value).attrs = assocGet n2 st.attrs ∧
      assocGet name (attrRevCycle st declsIn).attrs = some value ∧
      (∀ e, assocGet name st.guards = some e →
        assocGet name (attrRevCycle st declsOut).attrs = none ∧
        assocGet name (attrRevCycle st declsOut).guards = none) := by
  refine ⟨attrCall_attr_set st name value hinv.1,
    attrCall_attr_frame st name value n2 hn2, ?_, ?_⟩
  · obtain ⟨g1, g2, g3⟩ :=
      attrRun_single (attrClearMarks st) declsIn name value
        (attrClearMarks_inv st hinv) hin
    obtain ⟨-, s2⟩ := attrSweep_live _ name value g3 g1
    rw [show attrRevCycle st declsIn =
        attrSweep (attrRun (attrClearMarks st) declsIn) from rfl, s2, g2]
  · intro e hg
    obtain ⟨hr1, hr2, hr3⟩ :=
      attrRun_frame (attrClearMarks st) declsOut name hout (attrClearMarks_inv st hinv)
    have hgc : assocGet name (attrRun (attrClearMarks st) declsOut).guards =
        some ⟨e.fp, false⟩ := by
      rw [hr1, attrClearMarks_guards, hg]
      rfl
    exact ⟨attrSweep_attr_gone _ name ⟨e.fp, false⟩ hr3.2.1 hgc rfl,
      attrSweep_guard_gone _ name ⟨e.fp, false⟩ hr3.2.2 hgc rfl⟩

/-- Witness for C5: an element with no class guard stored; declaring
class with value b sets the attribute (initialization case), leaves
id-lookups alone, a revision declaring class keeps it set after its sweep,
and for any stored entry a revision without the declaration removes
attribute and guard. -/
theorem attr_effect_witness :
    assocGet "class" (attrCall ⟨[("id", "x")], [("id", ⟨"x", true⟩)]⟩
        "class" "b").attrs = some "b" ∧
      assocGet "id" (attrCall ⟨[("id", "x")], [("id", ⟨"x", true⟩)]⟩
          "class" "b").attrs =
        assocGet "id" (⟨[("id", "x")], [("id", ⟨"x", true⟩)]⟩ : AttrElemState).attrs ∧
      assocGet "class" (attrRevCycle ⟨[("id", "x")], [("id", ⟨"x", true⟩)]⟩
        [("class", "b")]).attrs = some "b" ∧
      (∀ e, assocGet "class"
          (⟨[("id", "x")], [("id", ⟨"x", true⟩)]⟩ : AttrElemState).guards = some e →
        assocGet "class" (attrRevCycle ⟨[("id", "x")], [("id", ⟨"x", true⟩)]⟩
          []).attrs = none ∧
        assocGet "class" (attrRevCycle ⟨[("id", "x")], [("id", ⟨"x", true⟩)]⟩
          []).guards = none) :=
  attr_effect ⟨[("id", "x")], [("id", ⟨"x", true⟩)]⟩ "class" "b" "id"
    [("class", "b")] []
    (by
      refine ⟨?_, by simp [keysOf], by simp [keysOf]⟩
      intro n e2 hge
      by_cases hn : "id" = n
      · subst hn
        simp [assocGet] at hge
        subst hge
        simp [assocGet]
      · simp [assocGet, hn] at hge)
    (by decide)
    (by simp [declsAt])
    (by simp)

/-- A DOM node identity; a node occurs at most once in a tree. -/
abbrev Node := Nat

/-- The cursor state of a `MemoElement`: the element's child list and the
`curr` cell — the last child declared this revision (dom/src/lib.rs,
`curr: Cell<Option<sys::Node>>`, reset to `None` for each revision's
`inner`). -/
structure ChildCursor where
  children : List Node
  curr : Option Node
  deriving DecidableEq

/-- The node right after the first occurrence of a node in the child list —
`Node::next_sibling`. -/
def nextSibling (p : Node) : List Node → Option Node
  | [] => none
  | x :: rest => if x = p then rest.head? else nextSibling p rest

/-- Replace the first occurrence of the old node by the new one. -/
def replaceFirst (new old : Node) : List Node → List Node
  | [] => []
  | x :: rest => if x = old then new :: rest else x :: replaceFirst new old rest

/-- DOM `replace_child(new, old)`: the new child is first detached from its
current position in the tree, then put where the old child was; the old child
leaves the tree. -/
def replaceChild (new old : Node) (l : List Node) : List Node :=
  replaceFirst new old (l.erase new)

/-- DOM `append_child(new)`: the new child is detached from its current
position and appended at the end. -/
def appendChild (new : Node) (l : List Node) : List Node := l.erase new ++ [new]

/-- The node occupying the expected position for the next declared child:
the element's first child when no child was declared yet this revision,
otherwise the next sibling of the previously declared child. -/
def expectedExisting (st : ChildCursor) : Option Node :=
  match st.curr with
  | none => st.children.head?
  | some p => nextSibling p st.children

/-- Embedded from `MemoElement::ensure_child_attached` (dom/src/lib.rs):
record the new child as current; if a node occupies the expected position and
is the same node, leave the DOM alone; if a different node occupies it,
replace it with the new child; if nothing occupies it, append the new
child. -/
def ensureChildAttached (st : ChildCursor) (new : Node) : ChildCursor :=
  match expectedExisting st with
  | some ex =>
      if ex = new then ⟨st.children, some new⟩
      else ⟨replaceChild new ex st.children, some new⟩
  | none => ⟨appendChild new st.children, some new⟩

/-- Attach a sequence of declared children in order. -/
def runAttaches (st : ChildCursor) : List Node → ChildCursor
  | [] => st
  | n :: rest => runAttaches (ensureChildAttached st n) rest

/-- Truncate the child list right after the first occurrence of a node — the
effect of the removal loop at the end of `MemoElement::inner`, which walks
`next_sibling` from the last declared child and removes every node it
yields. -/
def takeThrough (c : Node) : List Node → List Node
  | [] => []
  | x :: rest => if x = c then [x] else x :: takeThrough c rest

/-- Embedded from `MemoElement::inner` (dom/src/lib.rs): run the children
closure against a fresh cursor for the same element (the `env!` block
provides a new `MemoElement` with `curr = None`), read back the last declared
child, then remove every trailing node — every node after the last declared
child, or all children when none was declared. -/
def innerChildren (cs : List Node) (ns : List Node) : List Node :=
  match (runAttaches ⟨cs, none⟩ ns).curr with
  | none => []
  | some c => takeThrough c (runAttaches ⟨cs, none⟩ ns).children

/-- `MemoElement::inner` also passes the children closure's return value
through unchanged (`ret = children(); ...; ret`). -/
def innerCall {α : Type} (cs : List Node) (result : α × List Node) : α × List Node :=
  (result.1, innerChildren cs result.2)

theorem getLast?_mem_list (l : List Node) (a : Node) (h : l.getLast? = some a) :
    a ∈ l := by
  obtain ⟨hne, rfl⟩ := List.mem_getLast?_eq_getLast (show a ∈ l.getLast? from h)
  exact List.getLast_mem hne

theorem ensure_curr (st : ChildCursor) (n : Node) :
    (ensureChildAttached st n).curr = some n := by
  rcases h : expectedExisting st with _ | ex
  · simp [ensureChildAttached, h]
  · by_cases hex : ex = n <;> simp [ensureChildAttached, h, hex]

theorem nextSibling_mem (p x : Node) (l : List Node) (h : nextSibling p l = some x) :
    x ∈ l := by
  induction l with
  | nil => simp [nextSibling] at h
  | cons y rest ih =>
      by_cases hy : y = p
      · simp only [nextSibling, if_pos hy] at h
        exact List.mem_cons_of_mem _ (List.mem_of_mem_head? h)
      · simp only [nextSibling, if_neg hy] at h
        exact List.mem_cons_of_mem _ (ih h)

theorem expectedExisting_mem (st : ChildCursor) (ex : Node)
    (h : expectedExisting st = some ex) : ex ∈ st.children := by
  rcases hc : st.curr with _ | p
  · rw [expectedExisting, hc] at h
    exact List.mem_of_mem_head? h
  · rw [expectedExisting, hc] at h
    exact nextSibling_mem p ex st.children h

theorem replaceFirst_mem (new old : Node) (l : List Node) (h : old ∈ l) :
    new ∈ replaceFirst new old l := by
  induction l with
  | nil => simp at h
  | cons x rest ih =>
      by_cases hx : x = old
      · simp [replaceFirst, hx]
      · rcases List.mem_cons.1 h with h2 | h2
        · exact absurd h2.symm hx
        · simp only [replaceFirst, if_neg hx]
          exact List.mem_cons_of_mem _ (ih h2)

theorem ensure_mem (st : ChildCursor) (n : Node) :
    n ∈ (ensureChildAttached st n).children := by
  rcases h : expectedExisting st with _ | ex
  · simp only [ensureChildAttached, h]
    exact List.mem_append.2 (Or.inr (by simp [appendChild]))
  · by_cases hex : ex = n
    · subst hex
      simp only [ensureChildAttached, if_pos rfl, h]
      exact expectedExisting_mem st ex h
    · simp only [ensureChildAttached, h, if_neg hex]
      refine replaceFirst_mem n ex _ ?_
      exact (List.mem_erase_of_ne (Ne.symm (fun hh => hex hh.symm))).2
        (expectedExisting_mem st ex h)

theorem takeThrough_getLast (c : Node) (l : List Node) (h : c ∈ l) :
    (takeThrough c l).getLast? = some c := by
  induction l with
  | nil => simp at h
  | cons x rest ih =>
      by_cases hx : x = c
      · subst hx
        simp [takeThrough]
      · have h2 : c ∈ rest := by
          rcases List.mem_cons.1 h with h2 | h2
          · exact absurd h2.symm hx
          · exact h2
        have ih2 := ih h2
        rcases e : takeThrough c rest with _ | ⟨y, t⟩
        · rw [e] at ih2
          simp at ih2
        · simp only [takeThrough, if_neg hx, e]
          rw [← ih2, e]
          exact List.getLast?_cons_cons

theorem runAttaches_curr (st : ChildCursor) (ns : List Node) (hne : ns ≠ []) :
    (runAttaches st ns).curr = ns.getLast? := by
  induction ns generalizing st with
  | nil => exact absurd rfl hne
  | cons n rest ih =>
      rcases rest with _ | ⟨m, rest2⟩
      · rw [show runAttaches st [n] = ensureChildAttached st n from rfl, ensure_curr]
        rfl
      · rw [show runAttaches st (n :: m :: rest2) =
            runAttaches (ensureChildAttached st n) (m :: rest2) from rfl,
          ih (ensureChildAttached st n) (by simp)]
        exact List.getLast?_cons_cons.symm

theorem runAttaches_last_mem (st : ChildCursor) (ns : List Node) (c : Node)
    (hlast : ns.getLast? = some c) : c ∈ (runAttaches st ns).children := by
  induction ns generalizing st with
  | nil => simp at hlast
  | cons n rest ih =>
      rcases rest with _ | ⟨m, rest2⟩
      · simp at hlast
        subst hlast
        rw [show runAttaches st [n] = ensureChildAttached st n from rfl]
        exact ensure_mem st n
      · rw [show runAttaches st (n :: m :: rest2) =
            runAttaches (ensureChildAttached st n) (m :: rest2) from rfl]
        exact ih (ensureChildAttached st n) (by rw [← hlast]; exact List.getLast?_cons_cons.symm)

/-- Claim C9 (`inner` trims trailing children and passes the result through).
`inner(children)` returns exactly the closure's value; afterwards every DOM
child following the last child attached by the closure has been removed — the
element's final child list ends precisely at the last attached child — and
when the closure attached no child the element is left with no children. -/
theorem inner_trims_trailing {α : Type} (cs ns : List Node) (ret : α)
    (hne : ns ≠ []) :
    (innerCall cs (ret, ns)).1 = ret ∧
      innerChildren cs [] = [] ∧
      (innerChildren cs ns).getLast? = ns.getLast? := by
  refine ⟨rfl, rfl, ?_⟩
  rcases hlast : ns.getLast? with _ | c
  · rw [List.getLast?_eq_getLast_of_ne_nil hne] at hlast
    cases hlast
  · rw [innerChildren, runAttaches_curr ⟨cs, none⟩ ns hne, hlast]
    exact takeThrough_getLast c _ (runAttaches_last_mem ⟨cs, none⟩ ns c hlast)

/-- Witness for C9: attaching children 5 then 7 into an element holding
children 7, 9 leaves 7 as the element's final child; attaching nothing
empties the element; the closure's value 42 is returned unchanged. -/
theorem inner_trims_trailing_witness :
    (innerCall [7, 9] ((42 : Nat), [5, 7])).1 = 42 ∧
      innerChildren [7, 9] [] = [] ∧
      (innerChildren [7, 9] [5, 7]).getLast? = [5, 7].getLast? :=
  inner_trims_trailing [7, 9] [5, 7] 42 (by simp)

theorem replaceFirst_append_not_mem (new old : Node) (l1 l2 : List Node)
    (h : old ∉ l1) : replaceFirst new old (l1 ++ l2) = l1 ++ replaceFirst new old l2 := by
  induction l1 with
  | nil => rfl
  | cons x r ih =>
      have hx : x ≠ old := fun hh => h (hh ▸ List.mem_cons_self x r)
      rw [show (x :: r) ++ l2 = x :: (r ++ l2) from rfl,
        show replaceFirst new old (x :: (r ++ l2)) =
          (if x = old then new :: (r ++ l2) else x :: replaceFirst new old (r ++ l2))
          from rfl,
        if_neg hx, ih (fun hm => h (List.mem_cons_of_mem _ hm))]
      rfl

theorem nextSibling_after_last (pre rest : List Node) (c : Node)
    (hnd : (pre ++ rest).Nodup) (hc : pre.getLast? = some c) :
    nextSibling c (pre ++ rest) = rest.head? := by
  induction pre with
  | nil => simp at hc
  | cons x pre2 ih =>
      rcases pre2 with _ | ⟨y, pre3⟩
      · simp at hc
        subst hc
        simp [nextSibling]
      · have hc2 : (y :: pre3).getLast? = some c := by
          rw [← hc]
          exact List.getLast?_cons_cons.symm
        have hcmem : c ∈ y :: pre3 := getLast?_mem_list _ c hc2
        have hnd2 : ((y :: pre3) ++ rest).Nodup := by
          rw [show (x :: y :: pre3) ++ rest = x :: ((y :: pre3) ++ rest) from rfl] at hnd
          exact (List.nodup_cons.1 hnd).2
        have hx : x ≠ c := by
          intro hxc
          subst hxc
          rw [show (x :: y :: pre3) ++ rest = x :: ((y :: pre3) ++ rest) from rfl] at hnd
          exact (List.nodup_cons.1 hnd).1 (List.mem_append.2 (Or.inl hcmem))
        rw [show nextSibling c ((x :: y :: pre3) ++ rest) =
            (if x = c then ((y :: pre3) ++ rest).head?
              else nextSibling c ((y :: pre3) ++ rest)) from rfl,
          if_neg hx]
        exact ih hnd2 hc2

theorem expectedExisting_boundary (pre rest : List Node)
    (hnd : (pre ++ rest).Nodup) :
    expectedExisting ⟨pre ++ rest, pre.getLast?⟩ = rest.head? := by
  rcases hp : pre.getLast? with _ | c
  · have hpre : pre = [] := by
      rcases pre with _ | ⟨x, pre2⟩
      · rfl
      · rw [List.getLast?_eq_getLast_of_ne_nil (by simp)] at hp
        cases hp
    subst hpre
    rfl
  · rw [show expectedExisting ⟨pre ++ rest, some c⟩ =
        nextSibling c (pre ++ rest) from rfl]
    exact nextSibling_after_last pre rest c hnd hp

theorem ensure_step (pre rest : List Node) (n : Node)
    (hnd : (pre ++ rest).Nodup) (hn : n ∉ pre) :
    ∃ rest2, List.Sublist rest2 (rest.erase n) ∧
      ensureChildAttached ⟨pre ++ rest, pre.getLast?⟩ n = ⟨pre ++ n :: rest2, some n⟩ := by
  have hee := expectedExisting_boundary pre rest hnd
  rcases rest with _ | ⟨h, t⟩
  · refine ⟨[], by simp, ?_⟩
    have hee2 : expectedExisting ⟨pre ++ [], pre.getLast?⟩ = none := hee
    simp only [ensureChildAttached, hee2]
    rw [show appendChild n (pre ++ []) = (pre ++ []).erase n ++ [n] from rfl,
      List.append_nil, List.erase_of_not_mem hn]
  · have hee2 : expectedExisting ⟨pre ++ h :: t, pre.getLast?⟩ = some h := hee
    have hpre_h : h ∉ pre := by
      intro hmem
      exact (List.nodup_append.1 hnd).2.2 hmem (List.mem_cons_self h t)
    by_cases hh : h = n
    · subst hh
      refine ⟨t, by simp [List.erase_cons_head], ?_⟩
      simp [ensureChildAttached, hee2]
    · refine ⟨t.erase n, ?_, ?_⟩
      · rw [List.erase_cons_tail (by simp [hh])]
        exact List.sublist_cons_self _ _
      · simp only [ensureChildAttached, hee2, if_neg hh]
        rw [show replaceChild n h (pre ++ h :: t) =
            replaceFirst n h ((pre ++ h :: t).erase n) from rfl,
          List.erase_append_right _ hn, List.erase_cons_tail (by simp [hh]),
          replaceFirst_append_not_mem n h pre _ hpre_h,
          show replaceFirst n h (h :: t.erase n) = n :: t.erase n from by
            simp [replaceFirst]]

theorem step_nodup (pre rest rest2 : List Node) (n : Node)
    (hnd : (pre ++ rest).Nodup) (hn : n ∉ pre)
    (hsub : List.Sublist rest2 (rest.erase n)) :
    ((pre ++ [n]) ++ rest2).Nodup := by
  obtain ⟨hp, hr, hdisj⟩ := List.nodup_append.1 hnd
  have hrest2_sub : List.Sublist rest2 rest := hsub.trans (List.erase_sublist n rest)
  have hn_rest2 : n ∉ rest2 := by
    intro hmem
    rcases (hr.mem_erase_iff).1 (hsub.subset hmem) with ⟨hne, -⟩
    exact hne rfl
  refine List.nodup_append.2 ⟨?_, hr.sublist hrest2_sub, ?_⟩
  · refine List.nodup_append.2 ⟨hp, by simp, ?_⟩
    intro a ha1 ha2
    simp at ha2
    subst ha2
    exact hn ha1
  · intro a ha1 ha2
    rcases List.mem_append.1 ha1 with ha1 | ha1
    · exact hdisj ha1 (hrest2_sub.subset ha2)
    · simp at ha1
      subst ha1
      exact hn_rest2 ha2

theorem runAttaches_layout (ns : List Node) (pre rest : List Node)
    (hnd : (pre ++ rest).Nodup) (hns : ns.Nodup) (hdis : ∀ n ∈ ns, n ∉ pre) :
    ∃ rest2, List.Sublist rest2 rest ∧
      runAttaches ⟨pre ++ rest, pre.getLast?⟩ ns =
        ⟨(pre ++ ns) ++ rest2, (pre ++ ns).getLast?⟩ ∧
      ((pre ++ ns) ++ rest2).Nodup := by
  induction ns generalizing pre rest with
  | nil =>
      refine ⟨rest, List.Sublist.refl rest, ?_, ?_⟩
      · rw [show runAttaches ⟨pre ++ rest, pre.getLast?⟩ [] =
            ⟨pre ++ rest, pre.getLast?⟩ from rfl, List.append_nil]
      · rw [List.append_nil]
        exact hnd
  | cons n ns2 ih =>
      have hn_pre : n ∉ pre := hdis n (List.mem_cons_self n ns2)
      obtain ⟨rest2, hsub, heq⟩ := ensure_step pre rest n hnd hn_pre
      have hnd2 : ((pre ++ [n]) ++ rest2).Nodup := step_nodup pre rest rest2 n hnd hn_pre hsub
      have hdis2 : ∀ m ∈ ns2, m ∉ pre ++ [n] := by
        intro m hm hmem
        rcases List.mem_append.1 hmem with h2 | h2
        · exact hdis m (List.mem_cons_of_mem _ hm) h2
        · simp at h2
          subst h2
          exact (List.nodup_cons.1 hns).1 hm
      obtain ⟨rest3, hsub3, heq3, hnd3⟩ :=
        ih (pre ++ [n]) rest2 hnd2 (List.nodup_cons.1 hns).2 hdis2
      refine ⟨rest3, hsub3.trans (hsub.trans (List.erase_sublist n rest)), ?_, ?_⟩
      · rw [show runAttaches ⟨pre ++ rest, pre.getLast?⟩ (n :: ns2) =
            runAttaches (ensureChildAttached ⟨pre ++ rest, pre.getLast?⟩ n) ns2 from rfl,
          heq,
          show (⟨pre ++ n :: rest2, some n⟩ : ChildCursor) =
            ⟨(pre ++ [n]) ++ rest2, (pre ++ [n]).getLast?⟩ from by
              rw [List.append_assoc, List.getLast?_concat]
              rfl,
          heq3, List.append_assoc pre [n] ns2]
        rfl
      · rw [show (pre ++ n :: ns2) ++ rest3 = ((pre ++ [n]) ++ ns2) ++ rest3 from by
          rw [List.append_assoc pre [n] ns2]
          rfl]
        exact hnd3

theorem runAttaches_noop (ns : List Node) (done rest : List Node)
    (hnd : (done ++ (ns ++ rest)).Nodup) :
    runAttaches ⟨done ++ (ns ++ rest), done.getLast?⟩ ns =
      ⟨done ++ (ns ++ rest), (done ++ ns).getLast?⟩ := by
  induction ns generalizing done with
  | nil => simp [runAttaches]
  | cons n ns2 ih =>
      have hassoc : done ++ (n :: ns2 ++ rest) = (done ++ [n]) ++ (ns2 ++ rest) := by
        rw [List.append_assoc]
        rfl
      have hee : expectedExisting ⟨done ++ (n :: ns2 ++ rest), done.getLast?⟩ = some n :=
        expectedExisting_boundary done (n :: (ns2 ++ rest)) hnd
      have hstep : ensureChildAttached ⟨done ++ (n :: ns2 ++ rest), done.getLast?⟩ n =
          ⟨done ++ (n :: ns2 ++ rest), some n⟩ := by
        simp only [ensureChildAttached]
        rw [hee]
        simp
      rw [show runAttaches ⟨done ++ (n :: ns2 ++ rest), done.getLast?⟩ (n :: ns2) =
          runAttaches (ensureChildAttached ⟨done ++ (n :: ns2 ++ rest), done.getLast?⟩ n)
            ns2 from rfl,
        hstep,
        show (⟨done ++ (n :: ns2 ++ rest), some n⟩ : ChildCursor) =
          ⟨(done ++ [n]) ++ (ns2 ++ rest), (done ++ [n]).getLast?⟩ from by
            rw [List.getLast?_concat, ← hassoc],
        ih (done ++ [n]) (by rw [← hassoc]; exact hnd),
        ← hassoc, List.append_assoc done [n] ns2]
      rfl

/-- Claim C10 (`ensure_child_attached` is conservative and idempotent).  When
the node at the expected position — the first child for the first declared
child, otherwise the previously declared child's next sibling — is the same
node as the new child, the DOM is left unchanged; otherwise the occupying
node is replaced, or the new child appended when no node occupies the
position; consequently attaching the same (duplicate-free) child sequence
twice in a row is idempotent on the DOM. -/
theorem ensure_child_attached_idempotent (st : ChildCursor) (new : Node)
    (cs ns : List Node) (hex : expectedExisting st = some new)
    (hcs : cs.Nodup) (hns : ns.Nodup) :
    (ensureChildAttached st new).children = st.children ∧
      runAttaches ⟨(runAttaches ⟨cs, none⟩ ns).children, none⟩ ns =
        runAttaches ⟨cs, none⟩ ns := by
  constructor
  · simp [ensureChildAttached, hex]
  · obtain ⟨rest2, hsub, heq, hnd2⟩ := runAttaches_layout ns [] cs hcs hns (by simp)
    have heq2 : runAttaches ⟨cs, none⟩ ns = ⟨ns ++ rest2, ns.getLast?⟩ := heq
    have hnd2b : (ns ++ rest2).Nodup := hnd2
    rw [heq2]
    exact runAttaches_noop ns [] rest2 hnd2b

/-- Witness for C10: attaching node 7 when it already occupies the expected
position changes nothing, and attaching the sequence 2, 3 twice in a row into
an element holding 1, 2 gives the same DOM as attaching it once. -/
theorem ensure_child_attached_idempotent_witness :
    (ensureChildAttached ⟨[7], none⟩ 7).children = ([7] : List Node) ∧
      runAttaches ⟨(runAttaches ⟨[1, 2], none⟩ [2, 3]).children, none⟩ [2, 3] =
        runAttaches ⟨[1, 2], none⟩ [2, 3] :=
  ensure_child_attached_idempotent ⟨[7], none⟩ 7 [1, 2] [2, 3] rfl
    (by decide) (by decide)

end Moxie
